import Mathlib

/-!
Verification of the review-comment helpers of `src/platforms/github/commenter.ts`
and `src/platforms/gitlab/commenter.ts` (ai-pr-reviewer).

JavaScript strings are modelled as `List Char`; the JavaScript string methods
used by the commenters (`indexOf`, `lastIndexOf`, `slice`, `substring`, `split`,
`replace`, `trim`, `includes`) are embedded with their JavaScript semantics
(`-1` results become `none`, `substring` swaps its arguments when needed,
`slice` clamps).  The commenter methods themselves are translated directly from
the TypeScript source; the GitHub and the GitLab class contain character-for-
character identical copies of the pure helpers, which are therefore embedded
once.
-/

set_option maxRecDepth 10000

/-- JavaScript strings are modelled as lists of characters. -/
abbrev Str := List Char

/-- Conversion from a Lean string literal to the model type. -/
def strL (s : String) : Str := s.toList

/-- `occursAt pat s i = true` when `pat` occurs in `s` starting at index `i`. -/
def occursAt (pat s : Str) (i : Nat) : Bool := pat.isPrefixOf (s.drop i)

/-- Model of JavaScript `String.prototype.indexOf`: index of the first
occurrence of `pat` in `s`; `none` models the JavaScript result `-1`. -/
def jsIndexOf : Str → Str → Option Nat
  | [], pat => if pat.isPrefixOf ([] : Str) then some 0 else none
  | c :: t, pat => if pat.isPrefixOf (c :: t) then some 0 else (jsIndexOf t pat).map (· + 1)

/-- Helper for `jsLastIndexOf`: last occurrence of `pat` in `s`. -/
def lastOccAux (pat : Str) : Str → Option Nat
  | [] => if pat.isEmpty then some 0 else none
  | c :: t =>
    match lastOccAux pat t with
    | some i => some (i + 1)
    | none => if pat.isPrefixOf (c :: t) then some 0 else none

/-- Model of JavaScript `String.prototype.lastIndexOf`. -/
def jsLastIndexOf (s pat : Str) : Option Nat := lastOccAux pat s

/-- Model of JavaScript `s.slice(a, b)` for non-negative arguments. -/
def jsSlice2 (s : Str) (a b : Nat) : Str := (s.take b).drop a

/-- Model of JavaScript `s.substring(a, b)` for non-negative arguments:
the arguments are swapped when `a > b`. -/
def jsSubstring (s : Str) (a b : Nat) : Str := (s.take (max a b)).drop (min a b)

/-- Model of JavaScript `s.includes(pat)`. -/
def jsIncludes (s pat : Str) : Bool := (jsIndexOf s pat).isSome

/-- Model of JavaScript `s.replace(pat, rep)` with a string pattern:
only the first occurrence is replaced. -/
def jsReplaceFirst (s pat rep : Str) : Str :=
  match jsIndexOf s pat with
  | none => s
  | some i => s.take i ++ rep ++ s.drop (i + pat.length)

/-- JavaScript whitespace characters relevant here. -/
def isJsWs (c : Char) : Bool := c == ' ' || c == '\n' || c == '\t' || c == '\r'

/-- Model of JavaScript `s.trim()`. -/
def jsTrim (s : Str) : Str := ((s.dropWhile isJsWs).reverse.dropWhile isJsWs).reverse

/-- Fuel-indexed splitter; the fuel dominates the number of separator
occurrences, so `jsSplit` below always supplies enough. -/
def jsSplitAux (sep : Str) : Nat → Str → List Str
  | 0, s => [s]
  | fuel + 1, s =>
    match jsIndexOf s sep with
    | none => [s]
    | some i => s.take i :: jsSplitAux sep fuel (s.drop (i + sep.length))

/-- Model of JavaScript `s.split(sep)` with a string separator. -/
def jsSplit (s sep : Str) : List Str :=
  if sep.isEmpty then s.map (fun c => [c]) else jsSplitAux sep s.length s

/-! ### Basic facts about prefixes and occurrences -/

theorem isPrefixOf_eq_true_iff_take (p : Str) :
    ∀ l : Str, p.isPrefixOf l = true ↔ l.take p.length = p := by
  induction p with
  | nil => intro l; simp [List.isPrefixOf]
  | cons a p ih =>
    intro l
    cases l with
    | nil => simp [List.isPrefixOf]
    | cons b l =>
      simp only [List.isPrefixOf, List.length_cons, List.take_succ_cons, Bool.and_eq_true,
        beq_iff_eq, List.cons.injEq, ih]
      constructor
      · rintro ⟨h1, h2⟩; exact ⟨h1.symm, h2⟩
      · rintro ⟨h1, h2⟩; exact ⟨h1.symm, h2⟩

theorem isPrefixOf_length {p l : Str} (h : p.isPrefixOf l = true) : p.length ≤ l.length := by
  rw [isPrefixOf_eq_true_iff_take] at h
  conv_rhs => rw [← List.take_append_drop p.length l]
  rw [h]
  simp

theorem isPrefixOf_append {p l : Str} (m : Str) (h : p.isPrefixOf l = true) :
    p.isPrefixOf (l ++ m) = true := by
  have hlen := isPrefixOf_length h
  rw [isPrefixOf_eq_true_iff_take] at h ⊢
  rw [List.take_append_eq_append_take, h]
  have h0 : p.length - l.length = 0 := by omega
  simp [h0]

theorem isPrefixOf_self_append (p m : Str) : p.isPrefixOf (p ++ m) = true := by
  rw [isPrefixOf_eq_true_iff_take, List.take_append_eq_append_take]
  simp

theorem isPrefixOf_of_append {p l m : Str} (h : p.isPrefixOf (l ++ m) = true)
    (hl : p.length ≤ l.length) : p.isPrefixOf l = true := by
  rw [isPrefixOf_eq_true_iff_take] at h ⊢
  rw [List.take_append_eq_append_take] at h
  have h0 : p.length - l.length = 0 := by omega
  rw [h0] at h
  simpa using h

theorem isPrefixOf_getElem {p l : Str} (h : p.isPrefixOf l = true) :
    ∀ m, m < p.length → l[m]? = p[m]? := by
  intro m hm
  rw [isPrefixOf_eq_true_iff_take] at h
  conv_lhs => rw [← List.take_append_drop p.length l]
  rw [h, List.getElem?_append]
  simp [hm]

theorem isPrefixOf_of_take {p l : Str} {n : Nat} (h : p.isPrefixOf (l.take n) = true) :
    p.isPrefixOf l = true := by
  have := isPrefixOf_append (l.drop n) h
  rwa [List.take_append_drop] at this

theorem isPrefixOf_take {p l : Str} {n : Nat} (h : p.isPrefixOf l = true)
    (hn : p.length ≤ n) : p.isPrefixOf (l.take n) = true := by
  rw [isPrefixOf_eq_true_iff_take] at h ⊢
  rw [List.take_take, Nat.min_eq_left hn, h]

theorem occursAt_length {pat s : Str} {j : Nat} (hp : pat ≠ [])
    (h : occursAt pat s j = true) : j + pat.length ≤ s.length := by
  unfold occursAt at h
  have hle := isPrefixOf_length h
  rw [List.length_drop] at hle
  by_cases hj : j ≤ s.length
  · omega
  · exfalso
    have : s.drop j = [] := List.drop_eq_nil_of_le (by omega)
    rw [this] at h
    rw [isPrefixOf_eq_true_iff_take] at h
    simp at h
    exact hp h

theorem occursAt_getElem {pat s : Str} {j : Nat} (h : occursAt pat s j = true) :
    ∀ m, m < pat.length → s[j + m]? = pat[m]? := by
  intro m hm
  unfold occursAt at h
  have := isPrefixOf_getElem h m hm
  rwa [List.getElem?_drop] at this

theorem occursAt_short {pat s : Str} {j : Nat} (hp : pat ≠ [])
    (h : s.length < j + pat.length) : occursAt pat s j = false := by
  by_contra hc
  have := occursAt_length hp (by simpa using hc)
  omega

theorem occursAt_append_left {pat a : Str} {j : Nat} (b : Str)
    (h : occursAt pat a j = true) : occursAt pat (a ++ b) j = true := by
  unfold occursAt at h ⊢
  rw [List.drop_append_eq_append_drop]
  exact isPrefixOf_append _ h

theorem occursAt_append_right (pat a b : Str) (i : Nat) :
    occursAt pat (a ++ b) (a.length + i) = occursAt pat b i := by
  unfold occursAt
  rw [List.drop_append_eq_append_drop]
  have h1 : a.drop (a.length + i) = [] := List.drop_eq_nil_of_le (by omega)
  have h2 : a.length + i - a.length = i := by omega
  rw [h1, h2, List.nil_append]

theorem occursAt_append_elim {pat a b : Str} {j : Nat}
    (h : occursAt pat (a ++ b) j = true) (hj : j + pat.length ≤ a.length) :
    occursAt pat a j = true := by
  unfold occursAt at h ⊢
  rw [List.drop_append_eq_append_drop] at h
  have h0 : j - a.length = 0 := by omega
  rw [h0, List.drop_zero] at h
  by_cases hb : b = []
  · subst hb; simpa using h
  · exact isPrefixOf_of_append h (by rw [List.length_drop]; omega)

theorem occursAt_of_take {pat s : Str} {n j : Nat}
    (h : occursAt pat (s.take n) j = true) : occursAt pat s j = true := by
  unfold occursAt at h ⊢
  rw [List.drop_take] at h
  exact isPrefixOf_of_take h

theorem occursAt_take {pat s : Str} {n j : Nat} (h : occursAt pat s j = true)
    (hn : j + pat.length ≤ n) : occursAt pat (s.take n) j = true := by
  unfold occursAt at h ⊢
  rw [List.drop_take]
  exact isPrefixOf_take h (by omega)


theorem occursAt_zero (pat s : Str) : occursAt pat s 0 = pat.isPrefixOf s := rfl

theorem occursAt_cons_succ (pat : Str) (c : Char) (t : Str) (j : Nat) :
    occursAt pat (c :: t) (j + 1) = occursAt pat t j := rfl

theorem occursAt_nil (pat : Str) (j : Nat) :
    occursAt pat ([] : Str) j = pat.isPrefixOf ([] : Str) := by
  unfold occursAt
  rw [List.drop_nil]

theorem isPrefixOf_nil_right {pat : Str} (hp : pat ≠ []) :
    pat.isPrefixOf ([] : Str) = false := by
  cases pat with
  | nil => exact absurd rfl hp
  | cons a p => rfl

theorem jsIndexOf_eq_some_iff (s pat : Str) (i : Nat) :
    jsIndexOf s pat = some i ↔
      (occursAt pat s i = true ∧ ∀ j, j < i → occursAt pat s j = false) := by
  induction s generalizing i with
  | nil =>
    unfold jsIndexOf
    cases hp : List.isPrefixOf pat ([] : Str) with
    | false =>
      rw [if_neg (by simp [hp])]
      constructor
      · intro h; cases h
      · rintro ⟨hocc, -⟩
        rw [occursAt_nil, hp] at hocc
        cases hocc
    | true =>
      rw [if_pos (by simp [hp])]
      constructor
      · intro h
        cases h
        exact ⟨by rw [occursAt_nil, hp], fun j hj => by omega⟩
      · rintro ⟨-, hmin⟩
        rcases Nat.eq_zero_or_pos i with rfl | hi
        · rfl
        · have h0 := hmin 0 hi
          rw [occursAt_nil, hp] at h0
          cases h0
  | cons c t ih =>
    unfold jsIndexOf
    cases hp : List.isPrefixOf pat (c :: t) with
    | true =>
      rw [if_pos (by simp [hp])]
      constructor
      · intro h
        cases h
        exact ⟨by rw [occursAt_zero, hp], fun j hj => by omega⟩
      · rintro ⟨-, hmin⟩
        rcases Nat.eq_zero_or_pos i with rfl | hi
        · rfl
        · have h0 := hmin 0 hi
          rw [occursAt_zero, hp] at h0
          cases h0
    | false =>
      rw [if_neg (by simp [hp])]
      constructor
      · intro h
        rcases Option.map_eq_some'.mp h with ⟨i', hi', rfl⟩
        rcases (ih i').mp hi' with ⟨hocc, hmin⟩
        refine ⟨by rw [occursAt_cons_succ]; exact hocc, ?_⟩
        intro j hj
        cases j with
        | zero => rw [occursAt_zero]; exact hp
        | succ j' =>
          rw [occursAt_cons_succ]
          exact hmin j' (by omega)
      · rintro ⟨hocc, hmin⟩
        cases i with
        | zero =>
          rw [occursAt_zero, hp] at hocc
          cases hocc
        | succ i' =>
          have hocc' : occursAt pat t i' = true := by
            rw [← occursAt_cons_succ pat c]; exact hocc
          have hmin' : ∀ j, j < i' → occursAt pat t j = false := by
            intro j hj
            have := hmin (j + 1) (by omega)
            rwa [occursAt_cons_succ] at this
          rw [(ih i').mpr ⟨hocc', hmin'⟩]
          rfl

theorem jsIndexOf_eq_none_iff (s pat : Str) :
    jsIndexOf s pat = none ↔ ∀ j, occursAt pat s j = false := by
  induction s with
  | nil =>
    unfold jsIndexOf
    cases hp : List.isPrefixOf pat ([] : Str) with
    | false =>
      rw [if_neg (by simp [hp])]
      constructor
      · intro _ j
        rw [occursAt_nil, hp]
      · intro _; rfl
    | true =>
      rw [if_pos (by simp [hp])]
      constructor
      · intro h; cases h
      · intro h
        have := h 0
        rw [occursAt_nil, hp] at this
        cases this
  | cons c t ih =>
    unfold jsIndexOf
    cases hp : List.isPrefixOf pat (c :: t) with
    | true =>
      rw [if_pos (by simp [hp])]
      constructor
      · intro h; cases h
      · intro h
        have := h 0
        rw [occursAt_zero, hp] at this
        cases this
    | false =>
      rw [if_neg (by simp [hp])]
      constructor
      · intro h j
        have ht : jsIndexOf t pat = none := by
          cases hj : jsIndexOf t pat with
          | none => rfl
          | some v => rw [hj] at h; cases h
        cases j with
        | zero => rw [occursAt_zero]; exact hp
        | succ j' =>
          rw [occursAt_cons_succ]
          exact (ih.mp ht) j'
      · intro h
        have ht : ∀ j, occursAt pat t j = false := by
          intro j
          have := h (j + 1)
          rwa [occursAt_cons_succ] at this
        rw [ih.mpr ht]
        rfl

theorem lastOccAux_eq_none_iff (pat : Str) (hp : pat ≠ []) (s : Str) :
    lastOccAux pat s = none ↔ ∀ j, occursAt pat s j = false := by
  induction s with
  | nil =>
    unfold lastOccAux
    have he : pat.isEmpty = false := by
      cases pat with
      | nil => exact absurd rfl hp
      | cons a p => rfl
    rw [if_neg (by simp [he])]
    constructor
    · intro _ j
      rw [occursAt_nil, isPrefixOf_nil_right hp]
    · intro _; rfl
  | cons c t ih =>
    unfold lastOccAux
    cases hl : lastOccAux pat t with
    | some v =>
      simp only []
      constructor
      · intro h; cases h
      · intro h
        exfalso
        have hforall : ∀ j, occursAt pat t j = false := by
          intro j
          have := h (j + 1)
          rwa [occursAt_cons_succ] at this
        rw [ih.mpr hforall] at hl
        cases hl
    | none =>
      simp only []
      have hnone := ih.mp hl
      cases hpr : List.isPrefixOf pat (c :: t) with
      | true =>
        rw [if_pos (by simp [hpr])]
        constructor
        · intro h; cases h
        · intro h
          have := h 0
          rw [occursAt_zero, hpr] at this
          cases this
      | false =>
        rw [if_neg (by simp [hpr])]
        constructor
        · intro _ j
          cases j with
          | zero => rw [occursAt_zero]; exact hpr
          | succ j' =>
            rw [occursAt_cons_succ]
            exact hnone j'
        · intro _; rfl

theorem lastOccAux_eq_some_iff (pat : Str) (hp : pat ≠ []) (s : Str) (i : Nat) :
    lastOccAux pat s = some i ↔
      (occursAt pat s i = true ∧ ∀ j, i < j → occursAt pat s j = false) := by
  induction s generalizing i with
  | nil =>
    unfold lastOccAux
    have he : pat.isEmpty = false := by
      cases pat with
      | nil => exact absurd rfl hp
      | cons a p => rfl
    rw [if_neg (by simp [he])]
    constructor
    · intro h; cases h
    · rintro ⟨hocc, -⟩
      rw [occursAt_nil, isPrefixOf_nil_right hp] at hocc
      cases hocc
  | cons c t ih =>
    unfold lastOccAux
    cases hl : lastOccAux pat t with
    | some v =>
      simp only []
      rcases (ih v).mp hl with ⟨hocc, hmax⟩
      constructor
      · intro h
        cases h
        refine ⟨by rw [occursAt_cons_succ]; exact hocc, ?_⟩
        intro j hj
        cases j with
        | zero => omega
        | succ j' =>
          rw [occursAt_cons_succ]
          exact hmax j' (by omega)
      · rintro ⟨hocc', hmax'⟩
        cases i with
        | zero =>
          exfalso
          have := hmax' (v + 1) (by omega)
          rw [occursAt_cons_succ] at this
          rw [this] at hocc
          cases hocc
        | succ i' =>
          have ho : occursAt pat t i' = true := by
            rw [← occursAt_cons_succ pat c]; exact hocc'
          have hm : ∀ j, i' < j → occursAt pat t j = false := by
            intro j hj
            have := hmax' (j + 1) (by omega)
            rwa [occursAt_cons_succ] at this
          have := (ih i').mpr ⟨ho, hm⟩
          rw [hl] at this
          cases this
          rfl
    | none =>
      simp only []
      have hnone := (lastOccAux_eq_none_iff pat hp t).mp hl
      cases hpr : List.isPrefixOf pat (c :: t) with
      | true =>
        rw [if_pos (by simp [hpr])]
        constructor
        · intro h
          cases h
          refine ⟨by rw [occursAt_zero]; exact hpr, ?_⟩
          intro j hj
          cases j with
          | zero => omega
          | succ j' =>
            rw [occursAt_cons_succ]
            exact hnone j'
        · rintro ⟨hocc', hmax'⟩
          cases i with
          | zero => rfl
          | succ i' =>
            exfalso
            have := hnone i'
            rw [← occursAt_cons_succ pat c, hocc'] at this
            cases this
      | false =>
        rw [if_neg (by simp [hpr])]
        constructor
        · intro h; cases h
        · rintro ⟨hocc', -⟩
          exfalso
          cases i with
          | zero =>
            rw [occursAt_zero, hpr] at hocc'
            cases hocc'
          | succ i' =>
            have := hnone i'
            rw [← occursAt_cons_succ pat c, hocc'] at this
            cases this

/-- Composite non-occurrence: `pat` does not occur in `a ++ b` when it occurs in
neither part and no character of `pat` past position `0` equals the first
character of `b` (which rules out any occurrence crossing the boundary). -/
theorem not_occurs_append {pat a b : Str} (hp : pat ≠ [])
    (ha : ∀ j, occursAt pat a j = false) (hb : ∀ j, occursAt pat b j = false)
    (hcross : ∀ k, 0 < k → k < pat.length → pat[k]? ≠ b[0]?) :
    ∀ j, occursAt pat (a ++ b) j = false := by
  intro j
  by_contra hc
  have hocc : occursAt pat (a ++ b) j = true := by
    cases hx : occursAt pat (a ++ b) j with
    | false => exact absurd hx hc
    | true => rfl
  have hlen := occursAt_length hp hocc
  rw [List.length_append] at hlen
  by_cases h1 : j + pat.length ≤ a.length
  · have := occursAt_append_elim hocc h1
    rw [ha j] at this
    cases this
  · by_cases h2 : a.length ≤ j
    · have hj : j = a.length + (j - a.length) := by omega
      rw [hj, occursAt_append_right] at hocc
      rw [hb (j - a.length)] at hocc
      cases hocc
    · have hk1 : 0 < a.length - j := by omega
      have hk2 : a.length - j < pat.length := by omega
      have hel := occursAt_getElem hocc (a.length - j) hk2
      have hidx : j + (a.length - j) = a.length := by omega
      rw [hidx] at hel
      have hb0 : (a ++ b)[a.length]? = b[0]? := by
        rw [List.getElem?_append_right (by omega)]
        simp
      rw [hb0] at hel
      exact hcross (a.length - j) hk1 hk2 hel.symm

/-! ### Data model

Fields of GitHub/GitLab review comments used by the embedded methods
(`src/platforms/types.ts`); fields never inspected by those methods
(`createdAt`, `updatedAt`, `side`) are omitted. -/

/-- A platform review comment (`ReviewComment` in `src/platforms/types.ts`).
`startLine = none` models the TypeScript value `undefined`. -/
structure ReviewComment where
  id : Nat
  body : Str
  authorLogin : Str
  path : Str
  line : Nat
  startLine : Option Nat
  inReplyToId : Option Nat
deriving DecidableEq

/-- A buffered review comment (`BufferedReviewComment` in `src/platforms/types.ts`). -/
structure BufferedReviewComment where
  path : Str
  startLine : Nat
  endLine : Nat
  message : Str
deriving DecidableEq

/-- `COMMENT_TAG` of both commenter modules. -/
def COMMENT_TAG : Str := strL "<!-- This is an auto-generated comment by OSS CodeRabbit -->"

/-- `COMMIT_ID_START_TAG` of both commenter modules. -/
def COMMIT_ID_START_TAG : Str := strL "<!-- commit_ids_reviewed_start -->"

/-- `COMMIT_ID_END_TAG` of both commenter modules. -/
def COMMIT_ID_END_TAG : Str := strL "<!-- commit_ids_reviewed_end -->"

/-! ### `getCommentsAtRange` -/

/-- The filter of `GitHubCommenter.getCommentsAtRange`
(`src/platforms/github/commenter.ts`, lines 517-525). -/
def githubAtRangePred (path : Str) (startLine endLine : Nat) (c : ReviewComment) : Bool :=
  c.path == path && c.body != [] &&
    (c.startLine == some startLine && c.line == endLine ||
      (startLine == endLine && c.line == endLine))

/-- `GitHubCommenter.getCommentsAtRange` applied to the cached review comments
(`src/platforms/github/commenter.ts`, lines 510-526). -/
def githubGetCommentsAtRange (comments : List ReviewComment) (path : Str)
    (startLine endLine : Nat) : List ReviewComment :=
  comments.filter (githubAtRangePred path startLine endLine)

/-- The filter of `GitLabCommenter.getCommentsAtRange`
(`src/platforms/gitlab/commenter.ts`, lines 409-415): a pure line-containment
test, with no condition on `startLine` at all. -/
def gitlabAtRangePred (path : Str) (startLine endLine : Nat) (c : ReviewComment) : Bool :=
  c.path == path && c.body != [] &&
    decide (startLine ≤ c.line) && decide (c.line ≤ endLine)

/-- `GitLabCommenter.getCommentsAtRange` applied to the cached review comments
(`src/platforms/gitlab/commenter.ts`, lines 402-416). -/
def gitlabGetCommentsAtRange (comments : List ReviewComment) (path : Str)
    (startLine endLine : Nat) : List ReviewComment :=
  comments.filter (gitlabAtRangePred path startLine endLine)

/-! ### Comment-body helper methods (identical in both commenter classes) -/

/-- `getContentWithinTags` (github lines 587-594, gitlab lines 477-484). -/
def getContentWithinTags (content startTag endTag : Str) : Str :=
  match jsIndexOf content startTag, jsIndexOf content endTag with
  | some s, some e => jsSlice2 content (s + startTag.length) e
  | _, _ => []

/-- `removeContentWithinTags` (github lines 596-603, gitlab lines 486-493):
note the `lastIndexOf` for the end tag. -/
def removeContentWithinTags (content startTag endTag : Str) : Str :=
  match jsIndexOf content startTag, jsLastIndexOf content endTag with
  | some s, some e => content.take s ++ content.drop (e + endTag.length)
  | _, _ => content

/-- The token pipeline of `getReviewedCommitIds` applied to the text between
the ledger tags: split on `<!--`, strip the first `-->`, trim, drop empties. -/
def commitTokens (ids : Str) : List Str :=
  ((jsSplit ids (strL "<!--")).map
      (fun tok => jsTrim (jsReplaceFirst tok (strL "-->") []))).filter
    (fun tok => tok != [])

/-- `getReviewedCommitIds` (github lines 630-641, gitlab lines 520-531). -/
def getReviewedCommitIds (commentBody : Str) : List Str :=
  match jsIndexOf commentBody COMMIT_ID_START_TAG, jsIndexOf commentBody COMMIT_ID_END_TAG with
  | some s, some e =>
    commitTokens (jsSubstring commentBody (s + COMMIT_ID_START_TAG.length) e)
  | _, _ => []

/-- The rendered ledger entry `<!-- ${commitId} -->\n` used by `addReviewedCommitId`. -/
def ledgerEntry (commitId : Str) : Str :=
  strL "<!-- " ++ commitId ++ strL " -->" ++ strL "\n"

/-- `addReviewedCommitId` (github lines 652-663, gitlab lines 542-553). -/
def addReviewedCommitId (commentBody commitId : Str) : Str :=
  match jsIndexOf commentBody COMMIT_ID_START_TAG, jsIndexOf commentBody COMMIT_ID_END_TAG with
  | some s, some e =>
    jsSubstring commentBody 0 (s + COMMIT_ID_START_TAG.length) ++
      jsSubstring commentBody (s + COMMIT_ID_START_TAG.length) e ++
      ledgerEntry commitId ++ commentBody.drop e
  | _, _ =>
    commentBody ++ strL "\n" ++ COMMIT_ID_START_TAG ++ strL "\n" ++
      ledgerEntry commitId ++ COMMIT_ID_END_TAG

/-- Loop body of `getHighestReviewedCommitId`, walking the reversed list. -/
def getHighestAux (reviewed : List Str) : List Str → Str
  | [] => []
  | c :: rest => if reviewed.contains c then c else getHighestAux reviewed rest

/-- `getHighestReviewedCommitId` (github lines 665-675, gitlab lines 555-565):
scan `commitIds` from the highest index downwards. -/
def getHighestReviewedCommitId (commitIds reviewedCommitIds : List Str) : Str :=
  getHighestAux reviewedCommitIds commitIds.reverse

/-- The line format `${author.login}: ${body}` of `composeCommentChain`. -/
def formatChainLine (c : ReviewComment) : Str := c.authorLogin ++ strL ": " ++ c.body

/-- `composeCommentChain` (github lines 759-770, gitlab lines 639-650). -/
def composeCommentChain (reviewComments : List ReviewComment)
    (topLevelComment : ReviewComment) : Str :=
  List.intercalate (strL "\n---\n")
    (formatChainLine topLevelComment ::
      (reviewComments.filter
          (fun c => c.inReplyToId == some topLevelComment.id)).map formatChainLine)

/-- The `${t}\n${START}\n${x}\n${END}` region-insertion shape used by
`updateDescription` (github line 118, gitlab line 117) and, with the ledger
tags, by `addReviewedCommitId` (github line 656, gitlab line 546). -/
def insertRegion (t startTag endTag x : Str) : Str :=
  t ++ strL "\n" ++ startTag ++ strL "\n" ++ x ++ strL "\n" ++ endTag

/-! ### `submitReview`

The platform calls performed by `submitReview` are modelled as an event trace.
Every awaited platform call inside `submitReview` is wrapped in its own
`try/catch` in the source (github lines 185-313, gitlab lines 154-243), and the
comment caches backing `getCommentsAtRange` swallow fetch errors, so control
always reaches the final `this.reviewCommentsBuffer = []` statement of the
non-empty branch; the outcome of the fallible calls is abstracted by the
`atomicOk` / `discussionOk` parameters. -/

/-- A platform call made during `submitReview`. -/
inductive SubmitEvent where
  | deleteComment (id : Nat)
  | createReview (comments : List BufferedReviewComment)
  | createReviewComment (c : BufferedReviewComment)
  | createNote
  | createDiscussion (c : BufferedReviewComment)
deriving DecidableEq

/-- Whether a submit event is a review-comment deletion. -/
def isDeleteEvent : SubmitEvent → Bool
  | .deleteComment _ => true
  | _ => false

/-- Result of a `submitReview` call: the trace of platform calls, in order,
and the review-comment buffer left behind. -/
structure SubmitResult where
  events : List SubmitEvent
  finalBuffer : List BufferedReviewComment
deriving DecidableEq

/-- The review comments deleted by the first loop of
`GitHubCommenter.submitReview` (lines 215-239): for each buffered entry, the
comments at the exact range whose body contains `COMMENT_TAG`, in loop order. -/
def githubSubmitDeletes (existing : List ReviewComment)
    (buffer : List BufferedReviewComment) : List ReviewComment :=
  buffer.flatMap (fun b =>
    (githubGetCommentsAtRange existing b.path b.startLine b.endLine).filter
      (fun c => jsIncludes c.body COMMENT_TAG))

/-- `GitHubCommenter.submitReview` (lines 185-313) over the cached review
comments `existing`: empty-buffer short circuit, tagged-comment deletion loop,
then either the atomic `createReview`&`submitReview` pair or, when it throws
(`atomicOk = false`), per-comment `createReviewComment` calls; the buffer is
reset at line 312. -/
def githubSubmitReview (existing : List ReviewComment)
    (buffer : List BufferedReviewComment) (atomicOk : Bool) : SubmitResult :=
  if buffer.isEmpty then
    { events := [SubmitEvent.createReview []], finalBuffer := buffer }
  else
    { events :=
        (githubSubmitDeletes existing buffer).map (fun c => SubmitEvent.deleteComment c.id) ++
          (if atomicOk then [SubmitEvent.createReview buffer]
           else buffer.map SubmitEvent.createReviewComment),
      finalBuffer := [] }

/-- `GitLabCommenter.submitReview` (lines 154-243): empty-buffer short circuit,
then one discussion per buffered entry with a plain-note fallback
(`discussionOk b = false`).  Existing tagged comments at the same location are
only detected and logged (lines 190-200); no deletion call is ever issued.  The
buffer is reset at line 242. -/
def gitlabSubmitReview (existing : List ReviewComment)
    (buffer : List BufferedReviewComment)
    (discussionOk : BufferedReviewComment → Bool) : SubmitResult :=
  if buffer.isEmpty then
    { events := [SubmitEvent.createNote], finalBuffer := buffer }
  else
    { events := buffer.map (fun b =>
        if discussionOk b then SubmitEvent.createDiscussion b else SubmitEvent.createNote),
      finalBuffer := [] }

/-! ### `listComments` / `listReviewComments` pagination and cache

`GitHubCommenter.listComments` (lines 367-412) and
`GitHubCommenter.listReviewComments` (lines 414-475) share the same structure:
a cache lookup, then a page-by-page fetch (`per_page: 100`, continue while a
full page comes back), memoising the concatenation on success; the `catch`
returns the accumulated partial result without memoising.  The server is
modelled by the full list `all` (page `p` is the `p`-th chunk of 100) and a
fetch error by the number `errPage` of the first page whose fetch throws. -/

/-- Fuel-indexed pagination loop; `fuel = rest.length + 1` always suffices
because every continuing iteration consumes 100 elements. -/
def paginateAux {α : Type} (errPage : Option Nat) :
    Nat → List α → List α → Nat → (List α × Bool)
  | 0, acc, _, _ => (acc, true)
  | fuel + 1, acc, rest, page =>
    if errPage = some page then (acc, false)
    else
      if (rest.take 100).length < 100 then (acc ++ rest.take 100, true)
      else paginateAux errPage fuel (acc ++ rest.take 100) (rest.drop 100) (page + 1)

/-- The `while (true)` pagination loop, started at page 1 with an empty
accumulator; the boolean records whether the loop finished without a throw. -/
def paginatedFetch {α : Type} (all : List α) (errPage : Option Nat) : (List α × Bool) :=
  paginateAux errPage (all.length + 1) [] all 1

/-- One `listComments`/`listReviewComments` call for a fixed merge-request
number: `cache` is the cache slot for that number, the result carries the
returned list, the new cache slot, and whether any fetch was performed. -/
def listCommentsModel {α : Type} (cache : Option (List α)) (all : List α)
    (errPage : Option Nat) : (List α × Option (List α) × Bool) :=
  match cache with
  | some v => (v, some v, false)
  | none =>
    let r := paginatedFetch all errPage
    (r.1, if r.2 then some r.1 else none, true)

/-! ### Generic helper lemmas for the claim proofs -/

theorem ne_nil_of_jsIncludes {s pat : Str} (hp : pat ≠ []) (h : jsIncludes s pat = true) :
    s ≠ [] := by
  unfold jsIncludes at h
  cases hi : jsIndexOf s pat with
  | none => rw [hi] at h; cases h
  | some i =>
    have hocc := ((jsIndexOf_eq_some_iff s pat i).mp hi).1
    have hlen := occursAt_length hp hocc
    intro hs
    subst hs
    simp only [List.length_nil] at hlen
    have h0 : pat.length = 0 := by omega
    exact hp (List.length_eq_zero.mp h0)

theorem containsStr_iff (l : List Str) (c : Str) : l.contains c = true ↔ c ∈ l := by
  simp [List.contains]

/-! ### C1: range semantics of `getCommentsAtRange` -/

theorem mem_githubGetCommentsAtRange_iff (cs : List ReviewComment) (path : Str)
    (s e : Nat) (c : ReviewComment) :
    c ∈ githubGetCommentsAtRange cs path s e ↔
      (c ∈ cs ∧ c.path = path ∧ c.body ≠ [] ∧
        ((c.startLine = some s ∧ c.line = e) ∨ (s = e ∧ c.line = e))) := by
  simp [githubGetCommentsAtRange, githubAtRangePred, List.mem_filter, and_assoc]

theorem mem_gitlabGetCommentsAtRange_iff (cs : List ReviewComment) (path : Str)
    (s e : Nat) (c : ReviewComment) :
    c ∈ gitlabGetCommentsAtRange cs path s e ↔
      (c ∈ cs ∧ c.path = path ∧ c.body ≠ [] ∧ s ≤ c.line ∧ c.line ≤ e) := by
  simp [gitlabGetCommentsAtRange, gitlabAtRangePred, List.mem_filter, and_assoc]

/-- C1 (amended): on the GitHub commenter, a cached comment with
`startLine = 3, line = 5` is not returned by the query `(3, 6)` and is returned
exactly by the queries `(3, 5)` and `(5, 5)` (the single-line disjunct of the
filter also matches); a single-line comment (`startLine = undefined`) at
`line = 5` is returned exactly by queries with `startLine = endLine = 5`.  On
the GitLab commenter, `getCommentsAtRange` ignores the comment's `startLine`
entirely and returns every non-empty comment on the path whose `line` lies
within `[startLine, endLine]`, so the claimed exact-range semantics fail there. -/
theorem getCommentsAtRange_semantics :
    (∀ (cs : List ReviewComment) (path : Str) (c : ReviewComment),
        c ∈ cs → c.path = path → c.body ≠ [] →
        ((c.startLine = some 3 → c.line = 5 →
            c ∉ githubGetCommentsAtRange cs path 3 6 ∧
            ∀ s e, c ∈ githubGetCommentsAtRange cs path s e ↔
              ((s = 3 ∧ e = 5) ∨ (s = e ∧ e = 5))) ∧
          (c.startLine = none → c.line = 5 →
            ∀ s e, c ∈ githubGetCommentsAtRange cs path s e ↔ (s = e ∧ e = 5)))) ∧
    (∀ (cs : List ReviewComment) (path : Str) (s e : Nat) (c : ReviewComment),
        c ∈ gitlabGetCommentsAtRange cs path s e ↔
          (c ∈ cs ∧ c.path = path ∧ c.body ≠ [] ∧ s ≤ c.line ∧ c.line ≤ e)) := by
  constructor
  · intro cs path c hmem hpath hbody
    constructor
    · intro hsl hline
      have hiff : ∀ s e, c ∈ githubGetCommentsAtRange cs path s e ↔
          ((s = 3 ∧ e = 5) ∨ (s = e ∧ e = 5)) := by
        intro s e
        rw [mem_githubGetCommentsAtRange_iff]
        rw [hsl, hline]
        constructor
        · rintro ⟨-, -, -, (⟨h1, h2⟩ | ⟨h1, h2⟩)⟩
          · exact Or.inl ⟨by injection h1 with h1; omega, by omega⟩
          · exact Or.inr ⟨by omega, by omega⟩
        · rintro (⟨h1, h2⟩ | ⟨h1, h2⟩)
          · exact ⟨hmem, hpath, hbody, Or.inl ⟨by rw [h1], by omega⟩⟩
          · exact ⟨hmem, hpath, hbody, Or.inr ⟨by omega, by omega⟩⟩
      refine ⟨?_, hiff⟩
      intro hc
      have := (hiff 3 6).mp hc
      omega
    · intro hsl hline s e
      rw [mem_githubGetCommentsAtRange_iff, hsl, hline]
      constructor
      · rintro ⟨-, -, -, (⟨h1, h2⟩ | ⟨h1, h2⟩)⟩
        · cases h1
        · omega
      · rintro ⟨h1, h2⟩
        exact ⟨hmem, hpath, hbody, Or.inr ⟨by omega, by omega⟩⟩
  · exact mem_gitlabGetCommentsAtRange_iff

/-- C1 witness: `getCommentsAtRange_semantics` applied to a concrete GitHub
comment with `startLine = 3, line = 5`: not returned at `(3, 6)`, returned at
`(3, 5)`. -/
theorem getCommentsAtRange_semantics_witness :
    ((⟨1, strL "x", strL "u", strL "f", 5, some 3, none⟩ : ReviewComment) ∉
        githubGetCommentsAtRange [⟨1, strL "x", strL "u", strL "f", 5, some 3, none⟩]
          (strL "f") 3 6) ∧
    ((⟨1, strL "x", strL "u", strL "f", 5, some 3, none⟩ : ReviewComment) ∈
        githubGetCommentsAtRange [⟨1, strL "x", strL "u", strL "f", 5, some 3, none⟩]
          (strL "f") 3 5) :=
  ⟨((getCommentsAtRange_semantics.1 _ _ _ (by decide) (by decide) (by decide)).1
      (by decide) (by decide)).1,
    (((getCommentsAtRange_semantics.1 _ _ _ (by decide) (by decide) (by decide)).1
      (by decide) (by decide)).2 3 5).mpr (Or.inl ⟨rfl, rfl⟩)⟩

/-- C1 counterexample: on the GitLab commenter a single-line cached comment at
`line = 5` IS returned by the query `(3, 6)`, although `3 ≠ 5` and `6 ≠ 5`,
refuting the claimed exact-range semantics on that platform. -/
theorem gitlabGetCommentsAtRange_containment_cex :
    ((⟨1, strL "x", strL "u", strL "f", 5, none, none⟩ : ReviewComment) ∈
        gitlabGetCommentsAtRange [⟨1, strL "x", strL "u", strL "f", 5, none, none⟩]
          (strL "f") 3 6) ∧
    ((⟨1, strL "x", strL "u", strL "f", 5, none, none⟩ : ReviewComment).startLine = none) ∧
    ((⟨1, strL "x", strL "u", strL "f", 5, none, none⟩ : ReviewComment).line = 5) ∧
    (3 : Nat) ≠ 5 ∧ (6 : Nat) ≠ 5 := by
  decide

/-! ### C3: `submitReview` leaves the buffer empty -/

/-- C3: on both commenters and on every path through `submitReview` — empty
buffer, successful atomic submission, and the fallback entered when the atomic
operation throws — the review-comment buffer is empty afterwards. -/
theorem submitReview_clears_buffer :
    ∀ (existing : List ReviewComment) (buffer : List BufferedReviewComment)
      (atomicOk : Bool) (discussionOk : BufferedReviewComment → Bool),
      (githubSubmitReview existing buffer atomicOk).finalBuffer = [] ∧
      (gitlabSubmitReview existing buffer discussionOk).finalBuffer = [] := by
  intro existing buffer atomicOk discussionOk
  cases buffer with
  | nil => exact ⟨rfl, rfl⟩
  | cons b rest =>
    constructor
    · simp [githubSubmitReview, List.isEmpty]
    · simp [gitlabSubmitReview, List.isEmpty]

/-! ### C2: deletion of tagged comments before submission -/

/-- C2 (amended): on the GitHub commenter, for a non-empty buffer every cached
review comment at the exact `(path, startLine, endLine)` of a buffered entry
whose body contains `COMMENT_TAG` gets a `deleteComment` call, and the events
of `submitReview` split into the deletions followed by the (atomic or
fallback) creations, so every deletion precedes the batch submission.  On the
GitLab commenter no deletion call is ever issued: existing tagged comments are
only detected and logged. -/
theorem submitReview_delete_semantics :
    (∀ (existing : List ReviewComment) (buffer : List BufferedReviewComment)
        (atomicOk : Bool) (c : ReviewComment) (b : BufferedReviewComment),
        b ∈ buffer → c ∈ existing → c.path = b.path →
        ((c.startLine = some b.startLine ∧ c.line = b.endLine) ∨
          (b.startLine = b.endLine ∧ c.line = b.endLine)) →
        jsIncludes c.body COMMENT_TAG = true →
        ∃ ds rest, (githubSubmitReview existing buffer atomicOk).events = ds ++ rest ∧
          SubmitEvent.deleteComment c.id ∈ ds ∧
          (∀ ev ∈ ds, isDeleteEvent ev = true) ∧
          (∀ ev ∈ rest, isDeleteEvent ev = false)) ∧
    (∀ (existing : List ReviewComment) (buffer : List BufferedReviewComment)
        (discussionOk : BufferedReviewComment → Bool),
        ∀ ev ∈ (gitlabSubmitReview existing buffer discussionOk).events,
          isDeleteEvent ev = false) := by
  constructor
  · intro existing buffer atomicOk c b hb hc hpath hrange htag
    have hne : buffer ≠ [] := List.ne_nil_of_mem hb
    have hempty : ¬ (buffer.isEmpty = true) := by
      simp [List.isEmpty_iff]
      exact hne
    refine ⟨(githubSubmitDeletes existing buffer).map (fun c => SubmitEvent.deleteComment c.id),
      (if atomicOk then [SubmitEvent.createReview buffer]
        else buffer.map SubmitEvent.createReviewComment), ?_, ?_, ?_, ?_⟩
    · simp [githubSubmitReview, hempty]
    · rw [List.mem_map]
      refine ⟨c, ?_, rfl⟩
      rw [githubSubmitDeletes, List.mem_flatMap]
      refine ⟨b, hb, ?_⟩
      rw [List.mem_filter]
      refine ⟨?_, htag⟩
      rw [mem_githubGetCommentsAtRange_iff]
      have hbody : c.body ≠ [] :=
        ne_nil_of_jsIncludes (by decide : COMMENT_TAG ≠ []) htag
      exact ⟨hc, hpath, hbody, hrange⟩
    · intro ev hev
      rcases List.mem_map.mp hev with ⟨c', -, rfl⟩
      rfl
    · intro ev hev
      cases atomicOk with
      | true =>
        rw [if_pos rfl] at hev
        rcases List.mem_singleton.mp hev with rfl
        rfl
      | false =>
        rw [if_neg (by simp)] at hev
        rcases List.mem_map.mp hev with ⟨b', -, rfl⟩
        rfl
  · intro existing buffer discussionOk ev hev
    cases buffer with
    | nil =>
      simp [gitlabSubmitReview] at hev
      subst hev
      rfl
    | cons b rest =>
      simp only [gitlabSubmitReview, List.isEmpty] at hev
      rcases List.mem_map.mp hev with ⟨b', -, rfl⟩
      cases hd : discussionOk b' with
      | true =>
        rw [if_pos rfl]
        rfl
      | false => rfl

/-- C2 witness: `submitReview_delete_semantics` applied to a concrete GitHub
state with one tagged comment at the exact location of the single buffered
entry. -/
theorem submitReview_delete_semantics_witness :
    ∃ ds rest,
      (githubSubmitReview [⟨7, COMMENT_TAG, strL "u", strL "f", 10, none, none⟩]
          [⟨strL "f", 10, 10, strL "m"⟩] true).events = ds ++ rest ∧
      SubmitEvent.deleteComment 7 ∈ ds ∧
      (∀ ev ∈ ds, isDeleteEvent ev = true) ∧
      (∀ ev ∈ rest, isDeleteEvent ev = false) :=
  submitReview_delete_semantics.1 _ _ true
    ⟨7, COMMENT_TAG, strL "u", strL "f", 10, none, none⟩ ⟨strL "f", 10, 10, strL "m"⟩
    (by decide) (by decide) rfl (Or.inr ⟨rfl, rfl⟩) (by decide)

/-- C2 counterexample: on the GitLab commenter, with an existing tagged comment
at exactly `(10, 10)` on the buffered entry's path, `submitReview` issues no
deletion at all — the only platform call is the new discussion creation — so
the claimed delete-before-submit behavior fails on GitLab. -/
theorem gitlabSubmitReview_no_delete_cex :
    (gitlabSubmitReview [⟨7, COMMENT_TAG, strL "u", strL "f", 10, none, none⟩]
        [⟨strL "f", 10, 10, strL "m"⟩] (fun _ => true)).events =
      [SubmitEvent.createDiscussion ⟨strL "f", 10, 10, strL "m"⟩] ∧
    jsIncludes COMMENT_TAG COMMENT_TAG = true ∧
    SubmitEvent.deleteComment 7 ∉
      (gitlabSubmitReview [⟨7, COMMENT_TAG, strL "u", strL "f", 10, none, none⟩]
          [⟨strL "f", 10, 10, strL "m"⟩] (fun _ => true)).events := by
  refine ⟨rfl, by decide, ?_⟩
  intro h
  simp [gitlabSubmitReview, List.isEmpty] at h

/-! ### C8: `getHighestReviewedCommitId` -/

theorem getHighestAux_cons (reviewed : List Str) (c : Str) (rest : List Str) :
    getHighestAux reviewed (c :: rest) =
      if reviewed.contains c then c else getHighestAux reviewed rest := rfl

theorem getHighestAux_eq_nil {reviewed : List Str} :
    ∀ {L : List Str}, (∀ c ∈ L, c ∉ reviewed) → getHighestAux reviewed L = [] := by
  intro L
  induction L with
  | nil => intro _; rfl
  | cons c rest ih =>
    intro h
    have hc : reviewed.contains c = false := by
      cases hcc : reviewed.contains c with
      | false => rfl
      | true => exact absurd ((containsStr_iff reviewed c).mp hcc) (h c (by simp))
    rw [getHighestAux_cons, hc, if_neg (by simp)]
    exact ih (fun x hx => h x (by simp [hx]))

theorem getHighestAux_append_skip {reviewed : List Str} :
    ∀ {A : List Str} (rest : List Str), (∀ c ∈ A, c ∉ reviewed) →
      getHighestAux reviewed (A ++ rest) = getHighestAux reviewed rest := by
  intro A
  induction A with
  | nil => intro rest _; rfl
  | cons c A ih =>
    intro rest h
    have hc : reviewed.contains c = false := by
      cases hcc : reviewed.contains c with
      | false => rfl
      | true => exact absurd ((containsStr_iff reviewed c).mp hcc) (h c (by simp))
    rw [List.cons_append, getHighestAux_cons, hc, if_neg (by simp)]
    exact ih rest (fun x hx => h x (by simp [hx]))

/-- C8: `getHighestReviewedCommitId` returns the element of `commitIds` with
the greatest index that is a member of `reviewedCommitIds`, and the empty
string when no element is a member; in particular
`getHighestReviewedCommitId [c1, c2, c3] [c1, c3] = c3` and
`getHighestReviewedCommitId [c1, c2] [] = ""`. -/
theorem getHighestReviewedCommitId_spec :
    ∀ (commitIds reviewedCommitIds : List Str),
      ((∀ c ∈ commitIds, c ∉ reviewedCommitIds) →
        getHighestReviewedCommitId commitIds reviewedCommitIds = []) ∧
      (∀ (pre post : List Str) (c : Str), commitIds = pre ++ c :: post →
        c ∈ reviewedCommitIds → (∀ x ∈ post, x ∉ reviewedCommitIds) →
        getHighestReviewedCommitId commitIds reviewedCommitIds = c) ∧
      (∀ c1 c2 c3 : Str,
        getHighestReviewedCommitId [c1, c2, c3] [c1, c3] = c3 ∧
        getHighestReviewedCommitId [c1, c2] [] = []) := by
  intro commitIds reviewed
  refine ⟨?_, ?_, ?_⟩
  · intro h
    unfold getHighestReviewedCommitId
    exact getHighestAux_eq_nil (fun c hc => h c (List.mem_reverse.mp hc))
  · intro pre post c hsplit hc hpost
    unfold getHighestReviewedCommitId
    rw [hsplit, List.reverse_append, List.reverse_cons, List.append_assoc]
    rw [getHighestAux_append_skip _ (fun x hx => hpost x (List.mem_reverse.mp hx))]
    rw [List.singleton_append, getHighestAux_cons, (containsStr_iff reviewed c).mpr hc,
      if_pos rfl]
  · intro c1 c2 c3
    constructor
    · show getHighestAux [c1, c3] [c1, c2, c3].reverse = c3
      rw [show [c1, c2, c3].reverse = [c3, c2, c1] by simp]
      rw [getHighestAux_cons, (containsStr_iff [c1, c3] c3).mpr (by simp), if_pos rfl]
    · rfl

/-- C8 witness: `getHighestReviewedCommitId_spec` applied at concrete lists. -/
theorem getHighestReviewedCommitId_spec_witness :
    getHighestReviewedCommitId [strL "a", strL "b"] [strL "a"] = strL "a" ∧
    getHighestReviewedCommitId [strL "a", strL "b"] [] = [] :=
  ⟨(getHighestReviewedCommitId_spec [strL "a", strL "b"] [strL "a"]).2.1
      [] [strL "b"] (strL "a") rfl (by decide) (by decide),
    (getHighestReviewedCommitId_spec [strL "a", strL "b"] []).1 (by decide)⟩

/-! ### C9: `composeCommentChain` -/

/-- Spec-side rendition of C9's `linearize`, following the claim's words: start
from the root's own line and, walking the comment list in order, append
`separator ++ "{author}: {body}"` for exactly those comments whose
`inReplyToId` equals the root's id (one level only). -/
def specLinearize (reviewComments : List ReviewComment) (root : ReviewComment) : Str :=
  reviewComments.foldl
    (fun acc c =>
      if c.inReplyToId == some root.id then acc ++ strL "\n---\n" ++ formatChainLine c
      else acc)
    (formatChainLine root)

theorem intercalate_cons_join (sep : Str) :
    ∀ (L : List Str) (x : Str),
      List.intercalate sep (x :: L) = x ++ (L.map (fun y => sep ++ y)).flatten := by
  intro L
  induction L with
  | nil =>
    intro x
    simp [List.intercalate]
  | cons y L ih =>
    intro x
    have h1 : List.intercalate sep (x :: y :: L) =
        x ++ sep ++ List.intercalate sep (y :: L) := by
      simp [List.intercalate, List.intersperse]
    rw [h1, ih]
    simp [List.append_assoc]

theorem foldl_chain_join (p : ReviewComment → Bool) (sep : Str) :
    ∀ (cs : List ReviewComment) (x : Str),
      cs.foldl (fun acc c => if p c then acc ++ sep ++ formatChainLine c else acc) x =
        x ++ ((cs.filter p).map (fun c => sep ++ formatChainLine c)).flatten := by
  intro cs
  induction cs with
  | nil => intro x; simp
  | cons c cs ih =>
    intro x
    rw [List.foldl_cons]
    cases hp : p c with
    | true =>
      rw [if_pos rfl, ih, List.filter_cons_of_pos hp, List.map_cons, List.flatten_cons]
      simp [List.append_assoc]
    | false =>
      rw [if_neg (by simp), ih, List.filter_cons_of_neg (by simp [hp])]

/-- C9: `composeCommentChain` equals the spec's linearization — the root's line
followed by exactly the direct replies (comments whose `inReplyToId` equals the
root's id; one level only), each formatted as `"{author}: {body}"`, joined with
the separator, in input order — and on the spec's concrete example the
grandchild reply is excluded. -/
theorem composeCommentChain_spec :
    (∀ (reviewComments : List ReviewComment) (root : ReviewComment),
        composeCommentChain reviewComments root = specLinearize reviewComments root) ∧
    composeCommentChain
        [⟨1, strL "R", strL "author1", strL "f", 1, none, none⟩,
          ⟨2, strL "A", strL "author2", strL "f", 1, none, some 1⟩,
          ⟨3, strL "B", strL "author3", strL "f", 1, none, some 1⟩,
          ⟨4, strL "G", strL "author4", strL "f", 1, none, some 2⟩]
        ⟨1, strL "R", strL "author1", strL "f", 1, none, none⟩ =
      strL "author1: R\n---\nauthor2: A\n---\nauthor3: B" := by
  constructor
  · intro cs root
    unfold composeCommentChain specLinearize
    rw [intercalate_cons_join, foldl_chain_join]
    rw [List.map_map]
    rfl
  · decide

/-! ### C7: `listComments` / `listReviewComments` cache and pagination -/

theorem paginateAux_no_err {α : Type} :
    ∀ (fuel : Nat) (rest acc : List α) (page : Nat), rest.length < fuel →
      paginateAux none fuel acc rest page = (acc ++ rest, true) := by
  intro fuel
  induction fuel with
  | zero => intro rest acc page h; omega
  | succ fuel ih =>
    intro rest acc page h
    unfold paginateAux
    rw [if_neg (by simp)]
    by_cases hlen : (rest.take 100).length < 100
    · rw [if_pos hlen]
      have : rest.take 100 = rest := by
        rw [List.length_take] at hlen
        exact List.take_of_length_le (by omega)
      rw [this]
    · rw [if_neg hlen]
      rw [List.length_take] at hlen
      have hr : rest.length ≥ 100 := by omega
      rw [ih (rest.drop 100) (acc ++ rest.take 100) (page + 1)
        (by rw [List.length_drop]; omega)]
      rw [List.append_assoc, List.take_append_drop]

theorem paginateAux_err {α : Type} :
    ∀ (d fuel : Nat) (rest acc : List α) (page : Nat),
      100 * d ≤ rest.length → rest.length < fuel →
      paginateAux (some (page + d)) fuel acc rest page =
        (acc ++ rest.take (100 * d), false) := by
  intro d
  induction d with
  | zero =>
    intro fuel rest acc page hd hf
    cases fuel with
    | zero => omega
    | succ fuel =>
      unfold paginateAux
      rw [if_pos (by simp)]
      simp
  | succ d ih =>
    intro fuel rest acc page hd hf
    cases fuel with
    | zero => omega
    | succ fuel =>
      unfold paginateAux
      rw [if_neg (by simp only [Option.some.injEq]; omega)]
      have h100 : 100 ≤ rest.length := by omega
      rw [if_neg (by rw [List.length_take]; omega)]
      have harith : page + (d + 1) = (page + 1) + d := by omega
      rw [harith, ih fuel (rest.drop 100) (acc ++ rest.take 100) (page + 1)
        (by rw [List.length_drop]; omega) (by rw [List.length_drop]; omega)]
      rw [List.append_assoc]
      have htake : rest.take 100 ++ (rest.drop 100).take (100 * d) =
          rest.take (100 * (d + 1)) := by
        rw [show 100 * (d + 1) = 100 + 100 * d by ring, List.take_add]
      rw [htake]

/-- C7: read-through cache behavior of `listComments`/`listReviewComments` for
a fixed merge-request number.  A cache hit returns the memoised list with no
fetch; a first call without fetch errors fetches all pages of size 100 and
memoises the full concatenation; a fetch error at page `p` (reachable, i.e.
pages `1..p-1` were full) returns exactly the `100 * (p-1)` comments
accumulated so far and leaves the cache empty, so the next call fetches
afresh. -/
theorem listComments_cache_pagination {α : Type} (all cached : List α)
    (errPage : Option Nat) (p : Nat) :
    (listCommentsModel (some cached) all errPage = (cached, some cached, false)) ∧
    (listCommentsModel none all none = (all, some all, true)) ∧
    (1 ≤ p → 100 * (p - 1) ≤ all.length →
      listCommentsModel none all (some p) = (all.take (100 * (p - 1)), none, true)) := by
  refine ⟨rfl, ?_, ?_⟩
  · show (let r := paginatedFetch all none
      (r.1, if r.2 then some r.1 else none, true)) = (all, some all, true)
    rw [show paginatedFetch all none = ([] ++ all, true) from
      paginateAux_no_err (all.length + 1) all [] 1 (by omega)]
    simp
  · intro hp hle
    show (let r := paginatedFetch all (some p)
      (r.1, if r.2 then some r.1 else none, true)) = (all.take (100 * (p - 1)), none, true)
    have hform := paginateAux_err (p - 1) (all.length + 1) all [] 1 (by omega) (by omega)
    rw [show (1 : Nat) + (p - 1) = p from by omega] at hform
    rw [show paginatedFetch all (some p) = ([] ++ all.take (100 * (p - 1)), false) from hform]
    simp

/-- C7 witness: `listComments_cache_pagination` at concrete lists — a
successful fetch of a 3-element list, a cache hit, and an immediate error at
page 1 yielding the empty partial result without memoisation. -/
theorem listComments_cache_pagination_witness :
    listCommentsModel none [0, 1, 2] none = ([0, 1, 2], some [0, 1, 2], true) ∧
    listCommentsModel (some [9]) [0, 1, 2] none = ([9], some [9], false) ∧
    listCommentsModel none [0, 1, 2] (some 1) = ([], none, true) :=
  ⟨(listComments_cache_pagination [0, 1, 2] [9] none 1).2.1,
    (listComments_cache_pagination [0, 1, 2] [9] none 1).1,
    by
      have h := (listComments_cache_pagination [0, 1, 2] [9] none 1).2.2
        (by omega) (by simp)
      simpa using h⟩

/-! ### Reduction lemmas for the tag helpers -/

theorem nil_isPrefixOf (l : Str) : List.isPrefixOf ([] : Str) l = true := by
  cases l <;> rfl

theorem isPrefixOf_refl (p : Str) : p.isPrefixOf p = true := by
  rw [isPrefixOf_eq_true_iff_take]
  simp

theorem bool_eq_true_of_ne_false {b : Bool} (h : ¬ b = false) : b = true := by
  cases b with
  | false => exact absurd rfl h
  | true => rfl

theorem getContentWithinTags_eq {content S E : Str} {s e : Nat}
    (hs : jsIndexOf content S = some s) (he : jsIndexOf content E = some e) :
    getContentWithinTags content S E = (content.take e).drop (s + S.length) := by
  unfold getContentWithinTags jsSlice2
  rw [hs, he]

theorem getContentWithinTags_none {content S E : Str}
    (h : jsIndexOf content S = none ∨ jsIndexOf content E = none) :
    getContentWithinTags content S E = [] := by
  unfold getContentWithinTags
  rcases h with h | h
  · cases he : jsIndexOf content E with
    | none => rw [h]
    | some e => rw [h]
  · cases hs : jsIndexOf content S with
    | none => rw [h]
    | some s => rw [h]

theorem removeContentWithinTags_eq {content S E : Str} {s e : Nat}
    (hs : jsIndexOf content S = some s) (he : jsLastIndexOf content E = some e) :
    removeContentWithinTags content S E = content.take s ++ content.drop (e + E.length) := by
  unfold removeContentWithinTags
  rw [hs, he]

/-- Declarative first occurrence: `pat` occurs in `s` at `i` and nowhere
earlier. -/
def isFirstOccurrence (pat s : Str) (i : Nat) : Prop :=
  occursAt pat s i = true ∧ ∀ j, j < i → occursAt pat s j = false

instance (pat s : Str) (i : Nat) : Decidable (isFirstOccurrence pat s i) := by
  unfold isFirstOccurrence
  infer_instance

theorem jsIndexOf_of_first {pat s : Str} {i : Nat} (h : isFirstOccurrence pat s i) :
    jsIndexOf s pat = some i := (jsIndexOf_eq_some_iff s pat i).mpr h

/-! ### C4: `getContentWithinTags` -/

/-- C4 (amended): `getContentWithinTags` returns the empty string when either
marker is absent; when both are present, the end index is the first occurrence
of the end marker in the WHOLE text (not the first occurrence after the start
marker, as the claim states), and the result is the clamped slice between the
end of the first start-marker occurrence and that global first end occurrence —
which coincides with the claim's substring whenever the first end occurrence
lies at or after the end of the start marker, and is empty otherwise.  The
first end occurrence is in particular also the first one after the start
marker when it lies beyond it. -/
theorem getContentWithinTags_characterization :
    ∀ (content startTag endTag : Str),
      ((jsIndexOf content startTag = none ∨ jsIndexOf content endTag = none) →
        getContentWithinTags content startTag endTag = []) ∧
      (∀ s e, isFirstOccurrence startTag content s → isFirstOccurrence endTag content e →
        getContentWithinTags content startTag endTag =
            (content.take e).drop (s + startTag.length) ∧
          ∀ j, s + startTag.length ≤ j → j < e → occursAt endTag content j = false) := by
  intro content S E
  constructor
  · exact getContentWithinTags_none
  · intro s e hs he
    refine ⟨getContentWithinTags_eq (jsIndexOf_of_first hs) (jsIndexOf_of_first he), ?_⟩
    intro j _ hj
    exact he.2 j hj

/-- C4 witness: `getContentWithinTags_characterization` on a concrete text
with both markers present and the end marker after the start marker. -/
theorem getContentWithinTags_characterization_witness :
    getContentWithinTags (strL "x<s>y<e>z") (strL "<s>") (strL "<e>") =
      ((strL "x<s>y<e>z").take 5).drop (1 + (strL "<s>").length) :=
  (((getContentWithinTags_characterization (strL "x<s>y<e>z") (strL "<s>") (strL "<e>")).2
    1 5 (by decide) (by decide))).1

/-- C4 counterexample: in `"b.a.b"` with start marker `"a"` and end marker
`"b"`, the first end-marker occurrence after the start marker is at index 4 and
the substring strictly between is `"."`, but the code returns `""` because it
uses the global first occurrence of the end marker (index 0). -/
theorem getContentWithinTags_cex :
    getContentWithinTags (strL "b.a.b") (strL "a") (strL "b") = [] ∧
    isFirstOccurrence (strL "a") (strL "b.a.b") 2 ∧
    occursAt (strL "b") (strL "b.a.b") 4 = true ∧
    (∀ j, 3 ≤ j → j < 4 → occursAt (strL "b") (strL "b.a.b") j = false) ∧
    ((strL "b.a.b").take 4).drop 3 = strL "." ∧
    strL "." ≠ ([] : Str) := by
  refine ⟨by decide, by decide, by decide, ?_, by decide, by decide⟩
  intro j h1 h2
  have : j = 3 := by omega
  subst this
  decide

/-! ### C6: region round trip -/

theorem jsIndexOf_after_newline_barrier {S t : Str} (rest : Str)
    (hnoS : ∀ j, occursAt S t j = false)
    (hnl : ∀ k, k < S.length → S[k]? ≠ some '\n') :
    jsIndexOf (t ++ (strL "\n" ++ (S ++ rest))) S = some (t.length + 1) := by
  rw [jsIndexOf_eq_some_iff]
  constructor
  · have hresh : t ++ (strL "\n" ++ (S ++ rest)) = (t ++ strL "\n") ++ (S ++ rest) := by
      rw [List.append_assoc]
    have hlen : t.length + 1 = (t ++ strL "\n").length + 0 := by simp [strL]
    rw [hresh, hlen, occursAt_append_right, occursAt_zero]
    exact isPrefixOf_self_append S rest
  · intro j hj
    by_contra hc
    have hocc := bool_eq_true_of_ne_false hc
    by_cases hcase : j + S.length ≤ t.length
    · have := occursAt_append_elim hocc hcase
      rw [hnoS j] at this
      cases this
    · have hm1 : t.length - j < S.length := by omega
      have hel := occursAt_getElem hocc (t.length - j) hm1
      have hidx : j + (t.length - j) = t.length := by omega
      rw [hidx] at hel
      have hch : (t ++ (strL "\n" ++ (S ++ rest)))[t.length]? = some '\n' := by
        rw [List.getElem?_append_right (by omega)]
        rw [Nat.sub_self]
        have h0 : (strL "\n" ++ (S ++ rest) : Str) = '\n' :: (S ++ rest) := rfl
        rw [h0, List.getElem?_cons_zero]
      rw [hch] at hel
      exact hnl (t.length - j) hm1 hel.symm

theorem jsLastIndexOf_append_end {A E : Str} (hE : E ≠ []) :
    jsLastIndexOf (A ++ E) E = some A.length := by
  unfold jsLastIndexOf
  rw [lastOccAux_eq_some_iff E hE]
  constructor
  · have h0 := occursAt_append_right E A E 0
    rw [Nat.add_zero] at h0
    rw [h0, occursAt_zero]
    exact isPrefixOf_refl E
  · intro j hj
    apply occursAt_short hE
    rw [List.length_append]
    omega

/-- C6 (amended): for markers without the region separator's newline inside the
start tag and a text `t` free of the start marker, stripping the inserted
region returns `t ++ "\n"` — the original text plus the separating newline the
insertion shape added in front of the start tag — not exactly `t` as the claim
states. -/
theorem region_roundtrip_amended :
    ∀ (t startTag endTag x : Str),
      endTag ≠ [] →
      (∀ k, k < startTag.length → startTag[k]? ≠ some '\n') →
      (∀ j, occursAt startTag t j = false) →
      removeContentWithinTags (insertRegion t startTag endTag x) startTag endTag =
        t ++ strL "\n" := by
  intro t S E x hE hnl hnoS
  have hshape1 : insertRegion t S E x =
      t ++ (strL "\n" ++ (S ++ (strL "\n" ++ x ++ (strL "\n" ++ E)))) := by
    unfold insertRegion
    simp [List.append_assoc]
  have hshape2 : insertRegion t S E x =
      (t ++ strL "\n" ++ S ++ strL "\n" ++ x ++ strL "\n") ++ E := by
    unfold insertRegion
    simp [List.append_assoc]
  have hidx : jsIndexOf (insertRegion t S E x) S = some (t.length + 1) := by
    rw [hshape1]
    exact jsIndexOf_after_newline_barrier _ hnoS hnl
  have hlast : jsLastIndexOf (insertRegion t S E x) E =
      some (t ++ strL "\n" ++ S ++ strL "\n" ++ x ++ strL "\n").length := by
    rw [hshape2]
    exact jsLastIndexOf_append_end hE
  rw [removeContentWithinTags_eq hidx hlast]
  have hdrop : (insertRegion t S E x).drop
      ((t ++ strL "\n" ++ S ++ strL "\n" ++ x ++ strL "\n").length + E.length) = [] := by
    apply List.drop_eq_nil_of_le
    rw [hshape2, List.length_append]
  have htake : (insertRegion t S E x).take (t.length + 1) = t ++ strL "\n" := by
    have hresh : insertRegion t S E x =
        (t ++ strL "\n") ++ (S ++ (strL "\n" ++ x ++ (strL "\n" ++ E))) := by
      unfold insertRegion
      simp [List.append_assoc]
    rw [hresh]
    have hlen : t.length + 1 = (t ++ strL "\n").length := by simp [strL]
    rw [hlen, List.take_left]
  rw [htake, hdrop, List.append_nil]

theorem not_occurs_of_bounded {pat s : Str} (hp : pat ≠ [])
    (h : ∀ j, j < s.length → occursAt pat s j = false) :
    ∀ j, occursAt pat s j = false := by
  intro j
  by_cases hj : j < s.length
  · exact h j hj
  · have hlen : 0 < pat.length := List.length_pos.mpr hp
    exact occursAt_short hp (by omega)

/-- C6 witness: `region_roundtrip_amended` at concrete text and markers. -/
theorem region_roundtrip_amended_witness :
    removeContentWithinTags (insertRegion (strL "abc") (strL "<s>") (strL "<e>") (strL "x"))
        (strL "<s>") (strL "<e>") = strL "abc" ++ strL "\n" :=
  region_roundtrip_amended (strL "abc") (strL "<s>") (strL "<e>") (strL "x")
    (by decide) (by decide) (not_occurs_of_bounded (by decide) (by decide))

/-- C6 counterexample: the round trip of the claim, at concrete text `"abc"`
and concrete markers, produces `"abc\n"`, not `"abc"`: the claim's equation
`stripRegion (insertRegion t S E x) S E = t` fails. -/
theorem region_roundtrip_cex :
    removeContentWithinTags (insertRegion (strL "abc") (strL "<s>") (strL "<e>") (strL "x"))
        (strL "<s>") (strL "<e>") = strL "abc\n" ∧
    strL "abc\n" ≠ strL "abc" := by
  decide

/-! ### C5: `addReviewedCommitId` -/

theorem addReviewedCommitId_eq_absent {body commitId : Str}
    (h : jsIndexOf body COMMIT_ID_START_TAG = none ∨
      jsIndexOf body COMMIT_ID_END_TAG = none) :
    addReviewedCommitId body commitId =
      body ++ strL "\n" ++ COMMIT_ID_START_TAG ++ strL "\n" ++
        ledgerEntry commitId ++ COMMIT_ID_END_TAG := by
  unfold addReviewedCommitId
  rcases h with h | h
  · cases he : jsIndexOf body COMMIT_ID_END_TAG with
    | none => rw [h]
    | some e => rw [h]
  · cases hs : jsIndexOf body COMMIT_ID_START_TAG with
    | none => rw [h]
    | some s => rw [h]

theorem addReviewedCommitId_eq_present {body commitId : Str} {s e : Nat}
    (hs : jsIndexOf body COMMIT_ID_START_TAG = some s)
    (he : jsIndexOf body COMMIT_ID_END_TAG = some e) :
    addReviewedCommitId body commitId =
      jsSubstring body 0 (s + COMMIT_ID_START_TAG.length) ++
        jsSubstring body (s + COMMIT_ID_START_TAG.length) e ++
        ledgerEntry commitId ++ body.drop e := by
  unfold addReviewedCommitId
  rw [hs, he]

/-- Insertion shape of `addReviewedCommitId` when the ledger region is
present with the start tag before the end tag: the new entry lands immediately
before the first end-tag occurrence. -/
theorem addReviewedCommitId_insert_shape {body commitId : Str} {s e : Nat}
    (hs : jsIndexOf body COMMIT_ID_START_TAG = some s)
    (he : jsIndexOf body COMMIT_ID_END_TAG = some e)
    (hse : s + COMMIT_ID_START_TAG.length ≤ e) :
    addReviewedCommitId body commitId =
      body.take e ++ ledgerEntry commitId ++ body.drop e := by
  rw [addReviewedCommitId_eq_present hs he]
  have h1 : jsSubstring body 0 (s + COMMIT_ID_START_TAG.length) =
      body.take (s + COMMIT_ID_START_TAG.length) := by
    simp [jsSubstring]
  have h2 : jsSubstring body (s + COMMIT_ID_START_TAG.length) e =
      (body.take e).drop (s + COMMIT_ID_START_TAG.length) := by
    unfold jsSubstring
    rw [Nat.max_eq_right hse, Nat.min_eq_left hse]
  have h3 : body.take (s + COMMIT_ID_START_TAG.length) =
      (body.take e).take (s + COMMIT_ID_START_TAG.length) := by
    rw [List.take_take, Nat.min_eq_left hse]
  rw [h1, h2, h3, List.take_append_drop]

/-- C5 (amended): when the ledger region is absent, `addReviewedCommitId`
creates it appended to the text with a single entry; when it is present (start
tag before end tag), the new entry is inserted immediately BEFORE the first
occurrence of the ledger end tag — i.e. after all existing entries, not
immediately after the start tag as the claim states — preserving everything
else; and no deduplication is performed: adding the same id twice yields a
ledger whose parsed form holds the id twice. -/
theorem addReviewedCommitId_behavior :
    ∀ (commentBody commitId : Str),
      ((jsIndexOf commentBody COMMIT_ID_START_TAG = none ∨
          jsIndexOf commentBody COMMIT_ID_END_TAG = none) →
        addReviewedCommitId commentBody commitId =
          commentBody ++ strL "\n" ++ COMMIT_ID_START_TAG ++ strL "\n" ++
            ledgerEntry commitId ++ COMMIT_ID_END_TAG) ∧
      (∀ s e, isFirstOccurrence COMMIT_ID_START_TAG commentBody s →
        isFirstOccurrence COMMIT_ID_END_TAG commentBody e →
        s + COMMIT_ID_START_TAG.length ≤ e →
        addReviewedCommitId commentBody commitId =
          commentBody.take e ++ ledgerEntry commitId ++ commentBody.drop e) ∧
      getReviewedCommitIds
          (addReviewedCommitId (addReviewedCommitId [] (strL "a")) (strL "a")) =
        [strL "a", strL "a"] := by
  intro body commitId
  refine ⟨addReviewedCommitId_eq_absent, ?_, by decide⟩
  intro s e hs he hse
  exact addReviewedCommitId_insert_shape (jsIndexOf_of_first hs) (jsIndexOf_of_first he) hse

/-- C5 witness: `addReviewedCommitId_behavior` applied to a body whose ledger
already holds the entry `a`: the new entry `b` lands right before the end tag
at index 47. -/
theorem addReviewedCommitId_behavior_witness :
    addReviewedCommitId (addReviewedCommitId [] (strL "a")) (strL "b") =
      (addReviewedCommitId [] (strL "a")).take 47 ++ ledgerEntry (strL "b") ++
        (addReviewedCommitId [] (strL "a")).drop 47 :=
  (addReviewedCommitId_behavior (addReviewedCommitId [] (strL "a")) (strL "b")).2.1
    1 47 (by decide) (by decide) (by decide)

/-- Spec-side rendition of C5's claimed insertion position: the new ledger
entry goes immediately after the ledger start tag, in front of the existing
entries. -/
def specInsertAfterLedgerStart (commentBody commitId : Str) : Str :=
  match jsIndexOf commentBody COMMIT_ID_START_TAG with
  | some s =>
    commentBody.take (s + COMMIT_ID_START_TAG.length) ++ ledgerEntry commitId ++
      commentBody.drop (s + COMMIT_ID_START_TAG.length)
  | none =>
    commentBody ++ strL "\n" ++ COMMIT_ID_START_TAG ++ strL "\n" ++
      ledgerEntry commitId ++ COMMIT_ID_END_TAG

/-- C5 counterexample: inserting `"b"` into a ledger already holding `"a"`, the
code places the new entry AFTER the existing one — `<!-- a -->` sits at index
36, `<!-- b -->` only at index 47 — so the result differs from the claimed
insert-immediately-after-the-start-tag shape. -/
theorem addReviewedCommitId_insert_position_cex :
    addReviewedCommitId (addReviewedCommitId [] (strL "a")) (strL "b") ≠
      specInsertAfterLedgerStart (addReviewedCommitId [] (strL "a")) (strL "b") ∧
    jsIndexOf (addReviewedCommitId (addReviewedCommitId [] (strL "a")) (strL "b"))
        (strL "<!-- a -->") = some 36 ∧
    jsIndexOf (addReviewedCommitId (addReviewedCommitId [] (strL "a")) (strL "b"))
        (strL "<!-- b -->") = some 47 := by
  decide

/-! ### C10: splitting machinery -/

theorem jsIndexOf_nil {sep : Str} (hsep : sep ≠ []) : jsIndexOf ([] : Str) sep = none := by
  rw [jsIndexOf_eq_none_iff]
  intro j
  rw [occursAt_nil]
  exact isPrefixOf_nil_right hsep

theorem jsSplitAux_fuel_ge {sep : Str} (hsep : sep ≠ []) :
    ∀ (n fuel : Nat) (s : Str), s.length ≤ n → s.length ≤ fuel →
      jsSplitAux sep fuel s = jsSplitAux sep n s := by
  intro n
  induction n with
  | zero =>
    intro fuel s hn _
    have hs : s = [] := List.length_eq_zero.mp (by omega)
    subst hs
    cases fuel with
    | zero => rfl
    | succ fuel =>
      show (match jsIndexOf ([] : Str) sep with
        | none => [([] : Str)]
        | some i => List.take i [] :: jsSplitAux sep fuel (List.drop (i + sep.length) [])) =
        [([] : Str)]
      rw [jsIndexOf_nil hsep]
  | succ n ih =>
    intro fuel s hn hf
    cases fuel with
    | zero =>
      have hs : s = [] := List.length_eq_zero.mp (by omega)
      subst hs
      show [([] : Str)] = (match jsIndexOf ([] : Str) sep with
        | none => [([] : Str)]
        | some i => List.take i [] :: jsSplitAux sep n (List.drop (i + sep.length) []))
      rw [jsIndexOf_nil hsep]
    | succ fuel =>
      unfold jsSplitAux
      cases hidx : jsIndexOf s sep with
      | none => rfl
      | some i =>
        have hocc := ((jsIndexOf_eq_some_iff s sep i).mp hidx).1
        have hlen := occursAt_length hsep hocc
        have hsep1 : 1 ≤ sep.length := List.length_pos.mpr hsep
        show s.take i :: jsSplitAux sep fuel (s.drop (i + sep.length)) =
          s.take i :: jsSplitAux sep n (s.drop (i + sep.length))
        congr 1
        exact ih fuel (s.drop (i + sep.length))
          (by rw [List.length_drop]; omega) (by rw [List.length_drop]; omega)

theorem jsSplit_step {sep : Str} (hsep : sep ≠ []) (s : Str) :
    jsSplit s sep =
      match jsIndexOf s sep with
      | none => [s]
      | some i => s.take i :: jsSplit (s.drop (i + sep.length)) sep := by
  have hne : ¬ (sep.isEmpty = true) := by
    cases sep with
    | nil => exact absurd rfl hsep
    | cons a p => simp [List.isEmpty]
  have h1 : jsSplit s sep = jsSplitAux sep (s.length + 1) s := by
    show (if sep.isEmpty then s.map (fun c => [c]) else jsSplitAux sep s.length s) = _
    rw [if_neg hne]
    exact (jsSplitAux_fuel_ge hsep s.length (s.length + 1) s (le_refl _) (by omega)).symm
  rw [h1]
  unfold jsSplitAux
  cases hidx : jsIndexOf s sep with
  | none => rfl
  | some i =>
    have hocc := ((jsIndexOf_eq_some_iff s sep i).mp hidx).1
    have hlen := occursAt_length hsep hocc
    have hsep1 : 1 ≤ sep.length := List.length_pos.mpr hsep
    show s.take i :: jsSplitAux sep s.length (s.drop (i + sep.length)) =
      s.take i :: jsSplit (s.drop (i + sep.length)) sep
    congr 1
    have h2 : jsSplit (s.drop (i + sep.length)) sep =
        jsSplitAux sep (s.drop (i + sep.length)).length (s.drop (i + sep.length)) := by
      show (if sep.isEmpty then _ else _) = _
      rw [if_neg hne]
    rw [h2]
    exact jsSplitAux_fuel_ge hsep (s.drop (i + sep.length)).length s.length
      (s.drop (i + sep.length)) (le_refl _) (by rw [List.length_drop]; omega)

theorem jsSplit_nil {sep : Str} (hsep : sep ≠ []) : jsSplit ([] : Str) sep = [([] : Str)] := by
  rw [jsSplit_step hsep, jsIndexOf_nil hsep]

theorem jsIndexOf_append_at {A Q E : Str} (hE : E ≠ [])
    (hA : ∀ j, occursAt E A j = false)
    (hQ : occursAt E Q 0 = true)
    (hcross : ∀ k, 0 < k → k < E.length → E[k]? ≠ Q[0]?) :
    jsIndexOf (A ++ Q) E = some A.length := by
  rw [jsIndexOf_eq_some_iff]
  constructor
  · have h0 := occursAt_append_right E A Q 0
    rw [Nat.add_zero] at h0
    rw [h0]
    exact hQ
  · intro j hj
    by_contra hc
    have hocc := bool_eq_true_of_ne_false hc
    by_cases hcase : j + E.length ≤ A.length
    · have := occursAt_append_elim hocc hcase
      rw [hA j] at this
      cases this
    · have hm1 : A.length - j < E.length := by omega
      have hm0 : 0 < A.length - j := by omega
      have hel := occursAt_getElem hocc (A.length - j) hm1
      rw [show j + (A.length - j) = A.length by omega] at hel
      have hch : (A ++ Q)[A.length]? = Q[0]? := by
        rw [List.getElem?_append_right (by omega), Nat.sub_self]
      rw [hch] at hel
      exact hcross _ hm0 hm1 hel.symm

theorem jsIndexOf_append_at' {A Q E : Str} (hE : E ≠ []) (hAne : A ≠ [])
    (hA : ∀ j, occursAt E A j = false)
    (hQ : occursAt E Q 0 = true)
    (hbar : ∀ k, k < E.length → E[k]? ≠ A[A.length - 1]?) :
    jsIndexOf (A ++ Q) E = some A.length := by
  rw [jsIndexOf_eq_some_iff]
  constructor
  · have h0 := occursAt_append_right E A Q 0
    rw [Nat.add_zero] at h0
    rw [h0]
    exact hQ
  · intro j hj
    by_contra hc
    have hocc := bool_eq_true_of_ne_false hc
    by_cases hcase : j + E.length ≤ A.length
    · have := occursAt_append_elim hocc hcase
      rw [hA j] at this
      cases this
    · have hAlen : 1 ≤ A.length := List.length_pos.mpr hAne
      have hm1 : A.length - 1 - j < E.length := by omega
      have hel := occursAt_getElem hocc (A.length - 1 - j) hm1
      rw [show j + (A.length - 1 - j) = A.length - 1 by omega] at hel
      have hch : (A ++ Q)[A.length - 1]? = A[A.length - 1]? := by
        rw [List.getElem?_append]
        rw [if_pos (by omega)]
      rw [hch] at hel
      exact hbar _ hm1 hel.symm

theorem jsSplit_append_sep_of_none {sep : Str} (hsep : sep ≠ [])
    (hcross : ∀ k, 0 < k → k < sep.length → sep[k]? ≠ sep[0]?)
    (G R : Str) (hnone : jsIndexOf G sep = none) :
    jsSplit (G ++ (sep ++ R)) sep = jsSplit G sep ++ jsSplit R sep := by
  have hfirst : jsIndexOf (G ++ (sep ++ R)) sep = some G.length := by
    apply jsIndexOf_append_at hsep ((jsIndexOf_eq_none_iff G sep).mp hnone)
    · rw [occursAt_zero]
      exact isPrefixOf_self_append sep R
    · intro k hk0 hk1
      have hQ0 : (sep ++ R)[0]? = sep[0]? := by
        rw [List.getElem?_append]
        rw [if_pos (List.length_pos.mpr hsep)]
      rw [hQ0]
      exact hcross k hk0 hk1
  rw [jsSplit_step hsep (G ++ (sep ++ R)), hfirst]
  show (G ++ (sep ++ R)).take G.length ::
      jsSplit ((G ++ (sep ++ R)).drop (G.length + sep.length)) sep =
    jsSplit G sep ++ jsSplit R sep
  have ht : (G ++ (sep ++ R)).take G.length = G := by
    rw [List.take_append_eq_append_take, Nat.sub_self, List.take_zero,
      List.append_nil, List.take_length]
  have hd : (G ++ (sep ++ R)).drop (G.length + sep.length) = R := by
    rw [List.drop_append_eq_append_drop, List.drop_eq_nil_of_le (by omega),
      List.nil_append, show G.length + sep.length - G.length = sep.length by omega,
      List.drop_append_eq_append_drop, List.drop_length, List.nil_append,
      Nat.sub_self, List.drop_zero]
  rw [ht, hd, jsSplit_step hsep G, hnone]
  rfl

theorem jsSplit_append_sep {sep : Str} (hsep : sep ≠ [])
    (hcross : ∀ k, 0 < k → k < sep.length → sep[k]? ≠ sep[0]?) :
    ∀ (n : Nat) (G R : Str), G.length ≤ n →
      jsSplit (G ++ (sep ++ R)) sep = jsSplit G sep ++ jsSplit R sep := by
  intro n
  induction n with
  | zero =>
    intro G R hG
    have hnil : G = [] := List.length_eq_zero.mp (by omega)
    subst hnil
    exact jsSplit_append_sep_of_none hsep hcross [] R (jsIndexOf_nil hsep)
  | succ n ih =>
    intro G R hG
    cases hidx : jsIndexOf G sep with
    | none => exact jsSplit_append_sep_of_none hsep hcross G R hidx
    | some i =>
      obtain ⟨hocc, hmin⟩ := (jsIndexOf_eq_some_iff G sep i).mp hidx
      have hlen := occursAt_length hsep hocc
      have hsep1 : 1 ≤ sep.length := List.length_pos.mpr hsep
      have hfirst : jsIndexOf (G ++ (sep ++ R)) sep = some i := by
        rw [jsIndexOf_eq_some_iff]
        refine ⟨occursAt_append_left _ hocc, ?_⟩
        intro j hj
        by_contra hc
        have hoccj := bool_eq_true_of_ne_false hc
        have hwithin : occursAt sep G j = true := occursAt_append_elim hoccj (by omega)
        rw [hmin j hj] at hwithin
        cases hwithin
      rw [jsSplit_step hsep (G ++ (sep ++ R)), hfirst]
      show (G ++ (sep ++ R)).take i ::
          jsSplit ((G ++ (sep ++ R)).drop (i + sep.length)) sep =
        jsSplit G sep ++ jsSplit R sep
      have ht : (G ++ (sep ++ R)).take i = G.take i := by
        rw [List.take_append_eq_append_take, show i - G.length = 0 by omega,
          List.take_zero, List.append_nil]
      have hd : (G ++ (sep ++ R)).drop (i + sep.length) =
          (G.drop (i + sep.length)) ++ (sep ++ R) := by
        rw [List.drop_append_eq_append_drop, show i + sep.length - G.length = 0 by omega,
          List.drop_zero]
      rw [ht, hd, ih (G.drop (i + sep.length)) R (by rw [List.length_drop]; omega)]
      rw [jsSplit_step hsep G, hidx]
      rfl

/-! ### C10: the rendered ledger entry and its token -/

theorem not_occurs_append' {pat a b : Str} (hp : pat ≠ [])
    (ha : ∀ j, occursAt pat a j = false) (hb : ∀ j, occursAt pat b j = false)
    (hcross : ∀ j, j < a.length → pat[0]? ≠ a[j]?) :
    ∀ j, occursAt pat (a ++ b) j = false := by
  intro j
  by_contra hc
  have hocc := bool_eq_true_of_ne_false hc
  by_cases h1 : j + pat.length ≤ a.length
  · have := occursAt_append_elim hocc h1
    rw [ha j] at this
    cases this
  · by_cases h2 : a.length ≤ j
    · rw [show j = a.length + (j - a.length) by omega, occursAt_append_right] at hocc
      rw [hb (j - a.length)] at hocc
      cases hocc
    · have hel := occursAt_getElem hocc 0 (List.length_pos.mpr hp)
      rw [Nat.add_zero] at hel
      have hch : (a ++ b)[j]? = a[j]? := by
        rw [List.getElem?_append]
        rw [if_pos (by omega)]
      rw [hch] at hel
      exact hcross j (by omega) hel.symm

/-- The part of the rendered ledger entry after the leading `<!--`. -/
def tailOf (commitId : Str) : Str := strL " " ++ (commitId ++ strL " -->\n")

theorem ledgerEntry_decomp (commitId : Str) :
    ledgerEntry commitId = strL "<!--" ++ tailOf commitId := by
  unfold ledgerEntry tailOf
  have h1 : strL "<!-- " = strL "<!--" ++ strL " " := rfl
  have h2 : strL " -->" ++ strL "\n" = strL " " ++ strL "-->\n" := rfl
  have h3 : strL " -->\n" = strL " " ++ strL "-->\n" := rfl
  rw [h1, h3]
  simp only [List.append_assoc]
  rw [← h2]

theorem concrete_cross_sep :
    ∀ k, k < (strL "<!--").length → 0 < k →
      (strL "<!--")[k]? ≠ (strL "<!--")[0]? := by decide

theorem concrete_arrow_ne_space :
    ∀ k, k < (strL "-->").length → (strL "-->")[k]? ≠ some ' ' := by decide

theorem concrete_sep_ne_space :
    ∀ k, k < (strL "<!--").length → 0 < k → (strL "<!--")[k]? ≠ some ' ' := by decide

theorem getElem?_concat_last (X : Str) (c : Char) : (X ++ [c])[X.length]? = some c := by
  rw [List.getElem?_append_right (le_refl _), Nat.sub_self]
  rw [List.getElem?_cons_zero]

theorem jsIndexOf_tail_sep (commitId : Str)
    (Hsep : ∀ j, occursAt (strL "<!--") commitId j = false) :
    jsIndexOf (tailOf commitId) (strL "<!--") = none := by
  rw [jsIndexOf_eq_none_iff]
  unfold tailOf
  apply not_occurs_append' (by decide)
  · exact not_occurs_of_bounded (by decide) (by decide)
  · apply not_occurs_append (by decide) Hsep
    · exact not_occurs_of_bounded (by decide) (by decide)
    · intro k hk0 hk1
      have h0 : (strL " -->\n")[0]? = some ' ' := rfl
      rw [h0]
      exact concrete_sep_ne_space k hk1 hk0
  · intro j hj
    have hl : (strL " ").length = 1 := rfl
    rw [hl] at hj
    have hj0 : j = 0 := by omega
    subst hj0
    decide

theorem jsSplit_tailOf (commitId : Str)
    (Hsep : ∀ j, occursAt (strL "<!--") commitId j = false) :
    jsSplit (tailOf commitId) (strL "<!--") = [tailOf commitId] := by
  rw [jsSplit_step (by decide), jsIndexOf_tail_sep commitId Hsep]

theorem tailOf_shape (commitId : Str) :
    tailOf commitId = (([' '] ++ commitId) ++ [' ']) ++ strL "-->\n" := by
  unfold tailOf
  have e1 : strL " " = ([' '] : Str) := rfl
  have e2 : strL " -->\n" = ([' '] : Str) ++ strL "-->\n" := rfl
  rw [e1, e2]
  simp only [List.append_assoc]

theorem jsIndexOf_tail_arrow (commitId : Str)
    (Harr : ∀ j, occursAt (strL "-->") commitId j = false) :
    jsIndexOf (tailOf commitId) (strL "-->") = some (commitId.length + 2) := by
  rw [tailOf_shape]
  have hAlen : ((([' '] ++ commitId) ++ [' ']) : Str).length = commitId.length + 2 := by
    simp
  have hres := jsIndexOf_append_at' (A := ([' '] ++ commitId) ++ [' '])
      (Q := strL "-->\n") (E := strL "-->") (by decide)
      (by
        intro h
        rcases List.append_eq_nil.mp h with ⟨-, h2⟩
        cases h2)
      (by
        apply not_occurs_append (by decide)
        · apply not_occurs_append' (by decide)
          · exact not_occurs_of_bounded (by decide) (by decide)
          · exact Harr
          · intro j hj
            have hl : (([' '] : Str)).length = 1 := rfl
            rw [hl] at hj
            have hj0 : j = 0 := by omega
            subst hj0
            decide
        · exact not_occurs_of_bounded (by decide) (by decide)
        · intro k hk0 hk1
          have h0 : (([' '] : Str))[0]? = some ' ' := rfl
          rw [h0]
          exact concrete_arrow_ne_space k hk1)
      (by decide)
      (by
        intro k hk
        have h1 : ((([' '] ++ commitId) ++ [' ']) : Str).length - 1 =
            (([' '] ++ commitId) : Str).length := by
          simp
        rw [h1, getElem?_concat_last]
        exact concrete_arrow_ne_space k hk)
  rw [hres, hAlen]

theorem dropWhile_eq_self_of_all {l : Str} (h : ∀ c ∈ l, isJsWs c = false) :
    l.dropWhile isJsWs = l := by
  cases l with
  | nil => rfl
  | cons a t =>
    rw [List.dropWhile_cons, if_neg (by simp [h a (by simp)])]

theorem jsTrim_wrap (commitId : Str) (Hne : commitId ≠ [])
    (Hws : ∀ c ∈ commitId, isJsWs c = false) :
    jsTrim ((([' '] ++ commitId) ++ [' ']) ++ ['\n']) = commitId := by
  cases commitId with
  | nil => exact absurd rfl Hne
  | cons c0 id' =>
    have hshape : ((([' '] ++ (c0 :: id')) ++ [' ']) ++ ['\n'] : Str) =
        ' ' :: (c0 :: (id' ++ [' ', '\n'])) := by
      simp
    unfold jsTrim
    rw [hshape]
    rw [List.dropWhile_cons, if_pos (by decide)]
    rw [List.dropWhile_cons, if_neg (by simp [Hws c0 (by simp)])]
    rw [List.reverse_cons, List.reverse_append,
      show ([' ', '\n'] : Str).reverse = ['\n', ' '] from by decide]
    have hshape2 : ((['\n', ' '] ++ id'.reverse) ++ [c0] : Str) =
        '\n' :: (' ' :: (id'.reverse ++ [c0])) := by
      simp
    rw [hshape2]
    rw [List.dropWhile_cons, if_pos (by decide)]
    rw [List.dropWhile_cons, if_pos (by decide)]
    rw [dropWhile_eq_self_of_all (by
      intro c hc
      rcases List.mem_append.mp hc with hc | hc
      · exact Hws c (by simp [List.mem_reverse.mp hc])
      · rcases List.mem_singleton.mp hc with rfl
        exact Hws c (by simp))]
    rw [List.reverse_append, List.reverse_reverse,
      show ([c0] : Str).reverse = [c0] from by simp]
    rfl

theorem token_of_tail (commitId : Str) (Hne : commitId ≠ [])
    (Hws : ∀ c ∈ commitId, isJsWs c = false)
    (Harr : ∀ j, occursAt (strL "-->") commitId j = false) :
    jsTrim (jsReplaceFirst (tailOf commitId) (strL "-->") []) = commitId := by
  unfold jsReplaceFirst
  rw [jsIndexOf_tail_arrow commitId Harr]
  show jsTrim ((tailOf commitId).take (commitId.length + 2) ++ [] ++
      (tailOf commitId).drop (commitId.length + 2 + (strL "-->").length)) = commitId
  have hAlen : ((([' '] ++ commitId) ++ [' ']) : Str).length = commitId.length + 2 := by
    simp
  have htake : (tailOf commitId).take (commitId.length + 2) =
      (([' '] ++ commitId) ++ [' ']) := by
    rw [tailOf_shape, ← hAlen, List.take_left]
  have hdrop : (tailOf commitId).drop (commitId.length + 2 + (strL "-->").length) =
      ['\n'] := by
    rw [tailOf_shape, List.drop_append_eq_append_drop,
      List.drop_eq_nil_of_le (by rw [hAlen]; simp), List.nil_append]
    rw [hAlen]
    show (strL "-->\n").drop (commitId.length + 2 + 3 - (commitId.length + 2)) = ['\n']
    rw [show commitId.length + 2 + 3 - (commitId.length + 2) = 3 by omega]
    rfl
  rw [htake, hdrop, List.append_nil]
  exact jsTrim_wrap commitId Hne Hws

theorem commitTokens_append_entry (G commitId : Str) (Hne : commitId ≠ [])
    (Hws : ∀ c ∈ commitId, isJsWs c = false)
    (Hsep : ∀ j, occursAt (strL "<!--") commitId j = false)
    (Harr : ∀ j, occursAt (strL "-->") commitId j = false) :
    commitTokens (G ++ ledgerEntry commitId) = commitTokens G ++ [commitId] := by
  rw [ledgerEntry_decomp]
  unfold commitTokens
  rw [jsSplit_append_sep (by decide)
    (fun k hk0 hk1 => concrete_cross_sep k hk1 hk0) G.length G (tailOf commitId)
    (le_refl _)]
  rw [jsSplit_tailOf commitId Hsep]
  rw [List.map_append, List.filter_append]
  congr 1
  rw [List.map_cons, List.map_nil]
  rw [token_of_tail commitId Hne Hws Harr]
  rw [List.filter_cons, if_pos (by simp [bne_iff_ne, Hne])]
  rfl

/-! ### C10: ledger round trip -/

theorem getReviewedCommitIds_absent {body : Str}
    (h : jsIndexOf body COMMIT_ID_START_TAG = none ∨
      jsIndexOf body COMMIT_ID_END_TAG = none) :
    getReviewedCommitIds body = [] := by
  unfold getReviewedCommitIds
  rcases h with h | h
  · cases he : jsIndexOf body COMMIT_ID_END_TAG with
    | none => rw [h]
    | some e => rw [h]
  · cases hs : jsIndexOf body COMMIT_ID_START_TAG with
    | none => rw [h]
    | some s => rw [h]

theorem getReviewedCommitIds_present {body : Str} {s e : Nat}
    (hs : jsIndexOf body COMMIT_ID_START_TAG = some s)
    (he : jsIndexOf body COMMIT_ID_END_TAG = some e) :
    getReviewedCommitIds body =
      commitTokens (jsSubstring body (s + COMMIT_ID_START_TAG.length) e) := by
  unfold getReviewedCommitIds
  rw [hs, he]

theorem concrete_end_ne_nl :
    ∀ k, k < COMMIT_ID_END_TAG.length → COMMIT_ID_END_TAG[k]? ≠ some '\n' := by decide

theorem concrete_end_ne_lt :
    ∀ k, k < COMMIT_ID_END_TAG.length → 0 < k → COMMIT_ID_END_TAG[k]? ≠ some '<' := by
  decide

theorem concrete_start_ne_nl :
    ∀ k, k < COMMIT_ID_START_TAG.length → COMMIT_ID_START_TAG[k]? ≠ some '\n' := by decide

theorem ledgerEntry_head (commitId : Str) : (ledgerEntry commitId)[0]? = some '<' := by
  rw [ledgerEntry_decomp]
  rw [List.getElem?_append]
  rw [if_pos (by decide)]
  rfl

theorem end_not_in_ledger_prefix {body commitId : Str}
    (hE : jsIndexOf body COMMIT_ID_END_TAG = none)
    (Hentry : ∀ j, occursAt COMMIT_ID_END_TAG (ledgerEntry commitId) j = false) :
    ∀ j, occursAt COMMIT_ID_END_TAG
      (body ++ strL "\n" ++ COMMIT_ID_START_TAG ++ strL "\n" ++ ledgerEntry commitId)
      j = false := by
  apply not_occurs_append (by decide)
  · apply not_occurs_append (by decide)
    · apply not_occurs_append (by decide)
      · apply not_occurs_append (by decide)
        · exact (jsIndexOf_eq_none_iff body COMMIT_ID_END_TAG).mp hE
        · exact not_occurs_of_bounded (by decide) (by decide)
        · intro k hk0 hk1
          rw [show (strL "\n")[0]? = some '\n' from rfl]
          exact concrete_end_ne_nl k hk1
      · exact not_occurs_of_bounded (by decide) (by decide)
      · intro k hk0 hk1
        rw [show COMMIT_ID_START_TAG[0]? = some '<' from rfl]
        exact concrete_end_ne_lt k hk1 hk0
    · exact not_occurs_of_bounded (by decide) (by decide)
    · intro k hk0 hk1
      rw [show (strL "\n")[0]? = some '\n' from rfl]
      exact concrete_end_ne_nl k hk1
  · exact Hentry
  · intro k hk0 hk1
    rw [ledgerEntry_head]
    exact concrete_end_ne_lt k hk1 hk0

/-- C10 (amended): the ledger encode/decode round trip
`getReviewedCommitIds (addReviewedCommitId body id) = getReviewedCommitIds body ++ [id]`
holds for every commit id that is non-empty, whitespace-free, free of the
comment markers `<!--`/`-->` and whose rendered entry does not itself contain
the ledger end tag (which excludes the literal id `commit_ids_reviewed_end`),
provided the body is ledger-well-formed: it either contains neither ledger tag,
or contains both with the first start tag ending before the first end tag.
The claim as frozen, without the non-emptiness, the end-tag-clash exclusion and
the well-formedness of the body, is refuted by `ledger_roundtrip_cex`. -/
theorem ledger_roundtrip_amended :
    ∀ (commentBody commitId : Str),
      commitId ≠ [] →
      (∀ c ∈ commitId, isJsWs c = false) →
      (∀ j, occursAt (strL "<!--") commitId j = false) →
      (∀ j, occursAt (strL "-->") commitId j = false) →
      (∀ j, occursAt COMMIT_ID_END_TAG (ledgerEntry commitId) j = false) →
      ((jsIndexOf commentBody COMMIT_ID_START_TAG = none ∧
          jsIndexOf commentBody COMMIT_ID_END_TAG = none) ∨
        (∃ s e, jsIndexOf commentBody COMMIT_ID_START_TAG = some s ∧
          jsIndexOf commentBody COMMIT_ID_END_TAG = some e ∧
          s + COMMIT_ID_START_TAG.length ≤ e)) →
      getReviewedCommitIds (addReviewedCommitId commentBody commitId) =
        getReviewedCommitIds commentBody ++ [commitId] := by
  intro body commitId Hne Hws Hsep Harr Hentry hdisj
  rcases hdisj with ⟨hS, hE⟩ | ⟨s, e, hs, he, hse⟩
  · -- ledger region absent: it is created with the single entry
    rw [getReviewedCommitIds_absent (Or.inl hS)]
    rw [addReviewedCommitId_eq_absent (Or.inl hS)]
    have hidxS : jsIndexOf
        (body ++ strL "\n" ++ COMMIT_ID_START_TAG ++ strL "\n" ++
          ledgerEntry commitId ++ COMMIT_ID_END_TAG) COMMIT_ID_START_TAG =
        some (body.length + 1) := by
      have hshape : body ++ strL "\n" ++ COMMIT_ID_START_TAG ++ strL "\n" ++
          ledgerEntry commitId ++ COMMIT_ID_END_TAG =
          body ++ (strL "\n" ++ (COMMIT_ID_START_TAG ++
            (strL "\n" ++ (ledgerEntry commitId ++ COMMIT_ID_END_TAG)))) := by
        simp only [List.append_assoc]
      rw [hshape]
      exact jsIndexOf_after_newline_barrier _
        ((jsIndexOf_eq_none_iff body COMMIT_ID_START_TAG).mp hS)
        (fun k hk => concrete_start_ne_nl k hk)
    have hidxE : jsIndexOf
        (body ++ strL "\n" ++ COMMIT_ID_START_TAG ++ strL "\n" ++
          ledgerEntry commitId ++ COMMIT_ID_END_TAG) COMMIT_ID_END_TAG =
        some ((body ++ strL "\n" ++ COMMIT_ID_START_TAG ++ strL "\n" ++
          ledgerEntry commitId : Str).length) := by
      apply jsIndexOf_append_at (by decide)
      · exact end_not_in_ledger_prefix hE Hentry
      · rw [occursAt_zero]
        exact isPrefixOf_refl _
      · intro k hk0 hk1
        rw [show COMMIT_ID_END_TAG[0]? = some '<' from rfl]
        exact concrete_end_ne_lt k hk1 hk0
    rw [getReviewedCommitIds_present hidxS hidxE]
    have hnl1 : (strL "\n").length = 1 := rfl
    have hle : body.length + 1 + COMMIT_ID_START_TAG.length ≤
        ((body ++ strL "\n" ++ COMMIT_ID_START_TAG ++ strL "\n" ++
          ledgerEntry commitId : Str).length) := by
      simp only [List.length_append, hnl1]
      omega
    have hsub : jsSubstring
        (body ++ strL "\n" ++ COMMIT_ID_START_TAG ++ strL "\n" ++
          ledgerEntry commitId ++ COMMIT_ID_END_TAG)
        (body.length + 1 + COMMIT_ID_START_TAG.length)
        ((body ++ strL "\n" ++ COMMIT_ID_START_TAG ++ strL "\n" ++
          ledgerEntry commitId : Str).length) =
        strL "\n" ++ ledgerEntry commitId := by
      unfold jsSubstring
      rw [Nat.max_eq_right hle, Nat.min_eq_left hle]
      rw [List.take_left]
      have hshape2 : body ++ strL "\n" ++ COMMIT_ID_START_TAG ++ strL "\n" ++
          ledgerEntry commitId =
          (body ++ strL "\n" ++ COMMIT_ID_START_TAG) ++
            (strL "\n" ++ ledgerEntry commitId) := by
        simp only [List.append_assoc]
      rw [hshape2]
      rw [show body.length + 1 + COMMIT_ID_START_TAG.length =
        ((body ++ strL "\n" ++ COMMIT_ID_START_TAG : Str).length) from by
          simp only [List.length_append, hnl1]]
      rw [List.drop_left]
    rw [hsub]
    rw [commitTokens_append_entry (strL "\n") commitId Hne Hws Hsep Harr]
    rw [show commitTokens (strL "\n") = [] from by decide]
  · -- ledger region present with the tags in order
    obtain ⟨hoccS, hminS⟩ := (jsIndexOf_eq_some_iff body COMMIT_ID_START_TAG s).mp hs
    obtain ⟨hoccE, hminE⟩ := (jsIndexOf_eq_some_iff body COMMIT_ID_END_TAG e).mp he
    have hEpos : 0 < COMMIT_ID_END_TAG.length := by decide
    have hSpos : 0 < COMMIT_ID_START_TAG.length := by decide
    have hElen := occursAt_length (by decide) hoccE
    have hPlen : (body.take e).length = e := by
      rw [List.length_take]
      omega
    rw [addReviewedCommitId_insert_shape hs he hse]
    have hidxS : jsIndexOf (body.take e ++ ledgerEntry commitId ++ body.drop e)
        COMMIT_ID_START_TAG = some s := by
      rw [jsIndexOf_eq_some_iff]
      constructor
      · apply occursAt_append_left
        apply occursAt_append_left
        exact occursAt_take hoccS (by omega)
      · intro j hj
        by_contra hc
        have hocc := bool_eq_true_of_ne_false hc
        have h1 : j + COMMIT_ID_START_TAG.length ≤
            ((body.take e ++ ledgerEntry commitId : Str).length) := by
          rw [List.length_append, hPlen]
          omega
        have h2 := occursAt_append_elim hocc h1
        have h3 : j + COMMIT_ID_START_TAG.length ≤ (body.take e).length := by
          rw [hPlen]
          omega
        have h4 := occursAt_append_elim h2 h3
        have h5 := occursAt_of_take h4
        rw [hminS j hj] at h5
        cases h5
    have hidxE : jsIndexOf (body.take e ++ ledgerEntry commitId ++ body.drop e)
        COMMIT_ID_END_TAG =
        some ((body.take e ++ ledgerEntry commitId : Str).length) := by
      apply jsIndexOf_append_at (by decide)
      · apply not_occurs_append (by decide)
        · intro j
          by_contra hc
          have hocc := bool_eq_true_of_ne_false hc
          have hlen2 := occursAt_length (by decide) hocc
          rw [hPlen] at hlen2
          have h6 := occursAt_of_take hocc
          rw [hminE j (by omega)] at h6
          cases h6
        · exact Hentry
        · intro k hk0 hk1
          rw [ledgerEntry_head]
          exact concrete_end_ne_lt k hk1 hk0
      · show COMMIT_ID_END_TAG.isPrefixOf ((body.drop e).drop 0) = true
        rw [List.drop_zero]
        exact hoccE
      · intro k hk0 hk1
        have hQ0 : (body.drop e)[0]? = some '<' := by
          rw [List.getElem?_drop]
          have h7 := occursAt_getElem hoccE 0 hEpos
          rw [h7]
          rfl
        rw [hQ0]
        exact concrete_end_ne_lt k hk1 hk0
    rw [getReviewedCommitIds_present hidxS hidxE, getReviewedCommitIds_present hs he]
    have hle2 : s + COMMIT_ID_START_TAG.length ≤
        ((body.take e ++ ledgerEntry commitId : Str).length) := by
      rw [List.length_append, hPlen]
      omega
    have hsub1 : jsSubstring (body.take e ++ ledgerEntry commitId ++ body.drop e)
        (s + COMMIT_ID_START_TAG.length)
        ((body.take e ++ ledgerEntry commitId : Str).length) =
        (body.take e).drop (s + COMMIT_ID_START_TAG.length) ++ ledgerEntry commitId := by
      unfold jsSubstring
      rw [Nat.max_eq_right hle2, Nat.min_eq_left hle2]
      rw [List.take_left]
      rw [List.drop_append_eq_append_drop]
      rw [show s + COMMIT_ID_START_TAG.length - (body.take e).length = 0 from by
        rw [hPlen]; omega]
      rw [List.drop_zero]
    have hsub2 : jsSubstring body (s + COMMIT_ID_START_TAG.length) e =
        (body.take e).drop (s + COMMIT_ID_START_TAG.length) := by
      unfold jsSubstring
      rw [Nat.max_eq_right hse, Nat.min_eq_left hse]
    rw [hsub1, hsub2]
    exact commitTokens_append_entry _ commitId Hne Hws Hsep Harr

/-- C10 witness: `ledger_roundtrip_amended` applied to the empty body and the
commit id `"a"`. -/
theorem ledger_roundtrip_amended_witness :
    getReviewedCommitIds (addReviewedCommitId [] (strL "a")) =
      getReviewedCommitIds [] ++ [strL "a"] :=
  ledger_roundtrip_amended [] (strL "a") (by decide) (by decide)
    (not_occurs_of_bounded (by decide) (by decide))
    (not_occurs_of_bounded (by decide) (by decide))
    (not_occurs_of_bounded (by decide) (by decide))
    (Or.inl ⟨by decide, by decide⟩)

/-- C10 counterexample: for the body consisting of the ledger END tag alone
(and the commit id `"a"`, which is whitespace- and marker-free), the round
trip fails: the old ids parse to `[]` but the new body parses to two garbage
tokens instead of `["a"]`. -/
theorem ledger_roundtrip_cex :
    getReviewedCommitIds COMMIT_ID_END_TAG = [] ∧
    getReviewedCommitIds (addReviewedCommitId COMMIT_ID_END_TAG (strL "a")) =
      [strL "commit_ids_reviewed_end", strL "commit_ids_reviewed_start"] ∧
    getReviewedCommitIds (addReviewedCommitId COMMIT_ID_END_TAG (strL "a")) ≠
      getReviewedCommitIds COMMIT_ID_END_TAG ++ [strL "a"] := by
  decide
